import Mathlib

/-!
Verification of the title construct of a character-level incremental markup
tokenizer (the `partial_title` module), via a shallow embedding.

The input stream is a list of `Code` units; the tokenizer engine is the pair of
an append-only event log and a position cursor.  The construct itself
(`start`, `begin`, `at_break`, `title`, `escape`, and the `Kind` helpers) is a
direct translation of `src/construct/partial_title.rs`.  The engine primitives
(`enter`, `exit`, `consume`, `enter_with_content`), the subtokenizer `link`,
and the whitespace/line-ending sub-automaton `space_or_tab_eol` are not part of
the excerpted source and are modelled from the specification.
-/

set_option maxHeartbeats 1000000

/-- Input unit: one character, the atomic CR-LF pair, or the end-of-input
sentinel (`Code::None` in the source). -/
inductive Code where
  | none
  | carriageReturnLineFeed
  | char (c : Char)
  deriving DecidableEq, Repr, Inhabited

/-- Token kinds.  `data` and `lineEnding` are the fixed kinds used by the
construct and the modelled line-ending sub-automaton; `title`, `marker` and
`string` are the canonical caller-supplied kinds. -/
inductive Token where
  | data
  | lineEnding
  | title
  | marker
  | string
  deriving DecidableEq, Repr, Inhabited

/-- Content type tag: a span marked `string` is reparsed later by the string
grammar (character escapes, character references). -/
inductive ContentType where
  | string
  deriving DecidableEq, Repr, Inhabited

/-- Whether an event opens or closes a span. -/
inductive EventType where
  | enter
  | exit
  deriving DecidableEq, Repr, Inhabited

/-- One event of the log: enter or exit of a span of kind `token` at input
position `point`, with an optional content type and optional links to the
previous/next span of the same logical chain. -/
structure Event where
  eventType : EventType
  token : Token
  point : Nat
  content_type : Option ContentType
  previous : Option Nat
  next : Option Nat
  deriving DecidableEq, Repr, Inhabited

/-- The tokenizer engine state: the event log and the position cursor
(index of the next input unit). -/
structure Tokenizer where
  events : List Event
  point : Nat
  deriving DecidableEq, Repr, Inhabited

/-- Modelled from the spec: the engine primitive `enter(kind)` (the tokenizer
engine is not under `src/`); pushes an enter event at the current position. -/
def Tokenizer.enter (t : Tokenizer) (token : Token) : Tokenizer :=
  { t with events :=
      t.events ++ [⟨EventType.enter, token, t.point, Option.none, Option.none, Option.none⟩] }

/-- Modelled from the spec: the engine primitive `enter_with_content`
(the tokenizer engine is not under `src/`); like `enter` but tags the span with
a content type for deferred reparsing. -/
def Tokenizer.enter_with_content (t : Tokenizer) (token : Token)
    (content_type : Option ContentType) : Tokenizer :=
  { t with events :=
      t.events ++ [⟨EventType.enter, token, t.point, content_type, Option.none, Option.none⟩] }

/-- Modelled from the spec: the engine primitive `exit(kind)` (the tokenizer
engine is not under `src/`); pushes an exit event at the current position. -/
def Tokenizer.exit (t : Tokenizer) (token : Token) : Tokenizer :=
  { t with events :=
      t.events ++ [⟨EventType.exit, token, t.point, Option.none, Option.none, Option.none⟩] }

/-- Modelled from the spec: the engine primitive `consume` (the tokenizer
engine is not under `src/`); advances the position past exactly one unit. -/
def Tokenizer.consume (t : Tokenizer) : Tokenizer :=
  { t with point := t.point + 1 }

/-- Modelled from the spec: `crate::subtokenize::link` (not under `src/`);
marks the most recently opened span, whose enter event sits at `index`, as
continuing the previous span of the chain, whose enter event sits two places
earlier, by setting the mutual previous/next pointers. -/
def link (events : List Event) (index : Nat) : List Event :=
  (events.set (index - 2) { events.getD (index - 2) default with next := some index }).set index
    { events.getD index default with previous := some (index - 2) }

/-- The current unit: head of the remaining input, or the end-of-input
sentinel when the input is exhausted. -/
def headCode : List Code → Code
  | [] => Code.none
  | c :: _ => c

/-- Whether a unit is a line ending (CR, LF, or the atomic CR-LF pair). -/
def isEol : Code → Bool
  | Code.carriageReturnLineFeed => true
  | Code.char c => c == '\n' || c == '\r'
  | Code.none => false

/-- Type of title (`Kind` in the source). -/
inductive Kind where
  | paren
  | double
  | single
  deriving DecidableEq, Repr, Inhabited

/-- `Kind::as_char`: the closing character of the delimiter (a closing paren
for `paren`). -/
def Kind.as_char : Kind → Char
  | Kind.paren => ')'
  | Kind.double => '"'
  | Kind.single => '\''

/-- `Kind::from_char`: the kind opened by a character.  The source panics
(`unreachable!`) on any character other than the three openers; the panic is
modelled as `none`. -/
def Kind.from_char : Char → Option Kind
  | '(' => some Kind.paren
  | '"' => some Kind.double
  | '\'' => some Kind.single
  | _ => Option.none

/-- `Kind::from_code`: the kind opened by a unit.  The source panics
(`unreachable!`) on any unit that is not a valid opening character; the panic
is modelled as `none`. -/
def Kind.from_code : Code → Option Kind
  | Code.char c => Kind.from_char c
  | _ => Option.none

/-- Configuration (`Options` in the source): the caller-supplied token kinds. -/
structure Options where
  title : Token
  marker : Token
  string : Token
  deriving DecidableEq, Repr, Inhabited

/-- State needed to parse titles (`Info` in the source). -/
structure Info where
  connect : Bool
  kind : Kind
  options : Options
  deriving DecidableEq, Repr, Inhabited

/-- Terminal outcome of a run: `ok` with the final tokenizer and the
unconsumed remainder of the input, or `nok` (the tokenizer at the point of
failure is carried only for inspection; the attempting caller discards it). -/
inductive Result where
  | ok (t : Tokenizer) (rest : List Code)
  | nok (t : Tokenizer)
  deriving DecidableEq, Repr, Inhabited

/-- Configuration of the line-ending sub-automaton (`EolOptions`). -/
structure EolOptions where
  content_type : Option ContentType
  connect : Bool
  deriving DecidableEq, Repr, Inhabited

/-- Number of leading horizontal-whitespace units (space or tab). -/
def count_space_or_tab : List Code → Nat
  | Code.char ' ' :: rest => count_space_or_tab rest + 1
  | Code.char '\t' :: rest => count_space_or_tab rest + 1
  | _ => 0

/-- Modelled from the spec: the whitespace/line-ending sub-automaton
(`space_or_tab_eol_with_options` of `partial_space_or_tab`, not under `src/`).
Consumes exactly one line ending plus any immediately following horizontal
whitespace as one content-typed span, linking it to the chain when `connect`
is set; fails (returns `none`, i.e. Nok with the caller rolling back) when the
line ending is followed, after only whitespace, by another line ending or the
end of input, since that would make a blank line. -/
def space_or_tab_eol (options : EolOptions) (t : Tokenizer) (codes : List Code) :
    Option (Tokenizer × List Code) :=
  match codes with
  | [] => Option.none
  | c :: rest =>
    if isEol c then
      let t1 := t.enter_with_content Token.lineEnding options.content_type
      let t2 := if options.connect then
          { t1 with events := link t1.events (t1.events.length - 1) } else t1
      let k := count_space_or_tab rest
      let rest2 := rest.drop k
      if isEol (headCode rest2) || (headCode rest2 == Code.none) then Option.none
      else some (Tokenizer.exit { t2 with point := t2.point + 1 + k } Token.lineEnding, rest2)
    else Option.none

mutual

/-- After the opening marker, also used at the closing marker (`begin` in the
source): a unit equal to the closing character closes the title (possibly
empty), anything else opens the string span. -/
def begin (t : Tokenizer) (info : Info) (codes : List Code) : Result :=
  if headCode codes = Code.char info.kind.as_char then
    Result.ok
      ((((t.enter info.options.marker).consume).exit info.options.marker).exit info.options.title)
      codes.tail
  else
    at_break (t.enter info.options.string) info codes
termination_by
  codes.length * 10 + (if headCode codes = Code.char info.kind.as_char then 0 else 8)
decreasing_by
  all_goals
  (cases codes with
    | nil => simp_all [headCode, isEol]
    | cons c cs =>
      simp_all only [headCode, List.tail_cons, List.length_cons]
      split_ifs <;> (try simp_all) <;> omega)

/-- At something, before something else (`at_break` in the source). -/
def at_break (t : Tokenizer) (info : Info) (codes : List Code) : Result :=
  if headCode codes = Code.char info.kind.as_char then
    begin (t.exit info.options.string) info codes
  else if headCode codes = Code.none then
    Result.nok t
  else if isEol (headCode codes) then
    match h : space_or_tab_eol ⟨some ContentType.string, info.connect⟩ t codes with
    | some (t', rest) => at_break t' { info with connect := true } rest
    | Option.none => Result.nok t
  else
    let t1 := t.enter_with_content Token.data (some ContentType.string)
    if info.connect then
      title { t1 with events := link t1.events (t1.events.length - 1) } info codes
    else
      title t1 { info with connect := true } codes
termination_by
  codes.length * 10 + (if headCode codes = Code.char info.kind.as_char then 1
    else if headCode codes = Code.none then 0
    else if isEol (headCode codes) = true then 5 else 4)
decreasing_by
  all_goals first
  | (have hlen : rest.length < codes.length := by
       cases codes with
       | nil => simp [space_or_tab_eol] at h
       | cons c cs =>
         simp only [space_or_tab_eol] at h
         split at h
         · split at h
           · simp at h
           · simp only [Option.some.injEq, Prod.mk.injEq] at h
             have h2 : rest = cs.drop (count_space_or_tab cs) := h.2.symm
             rw [h2]
             simp only [List.length_drop, List.length_cons]
             omega
         · simp at h
     have h5 : (if headCode rest = Code.char info.kind.as_char then 1
         else if headCode rest = Code.none then 0
         else if isEol (headCode rest) = true then 5 else 4) ≤ 5 := by
       split <;> try omega
       split <;> try omega
       split <;> omega
     omega)
  | (cases codes with
    | nil => simp_all [headCode, isEol]
    | cons c cs =>
      simp_all only [headCode, List.tail_cons, List.length_cons]
      split_ifs <;> (try simp_all) <;> omega)

/-- In title text (`title` in the source): the closing character, end of
input, or a line ending closes the data span and returns to `at_break`; a
backslash is consumed and handled by `escape`; anything else is consumed as
literal data. -/
def title (t : Tokenizer) (info : Info) (codes : List Code) : Result :=
  if headCode codes = Code.char info.kind.as_char then
    at_break (t.exit Token.data) info codes
  else if headCode codes = Code.none ∨ isEol (headCode codes) then
    at_break (t.exit Token.data) info codes
  else if headCode codes = Code.char '\\' then
    escape t.consume info codes.tail
  else
    title t.consume info codes.tail
termination_by
  codes.length * 10 + (if headCode codes = Code.char info.kind.as_char
      ∨ headCode codes = Code.none ∨ isEol (headCode codes) = true then 6 else 2)
decreasing_by
  all_goals
  (cases codes with
    | nil => simp_all [headCode, isEol]
    | cons c cs =>
      simp_all only [headCode, List.tail_cons, List.length_cons]
      split_ifs <;> (try simp_all) <;> omega)

/-- After a backslash in title text (`escape` in the source): the closing
character is consumed as escaped literal content; any other unit is handed
back, unconsumed, to `title`. -/
def escape (t : Tokenizer) (info : Info) (codes : List Code) : Result :=
  if headCode codes = Code.char info.kind.as_char then
    title t.consume info codes.tail
  else
    title t info codes
termination_by
  codes.length * 10 + 7
decreasing_by
  all_goals
  (cases codes with
    | nil => simp_all [headCode, isEol]
    | cons c cs =>
      simp_all only [headCode, List.tail_cons, List.length_cons]
      split_ifs <;> (try simp_all) <;> omega)

end

/-- Before a title (`start` in the source): requires the current unit to be
one of the three opening characters; opens the title and marker spans,
consumes the opener, and determines the delimiter kind from it. -/
def start (t : Tokenizer) (options : Options) (codes : List Code) : Result :=
  match headCode codes with
  | Code.char '"' | Code.char '\'' | Code.char '(' =>
    match Kind.from_code (headCode codes) with
    | some kind =>
      begin ((((t.enter options.title).enter options.marker).consume).exit options.marker)
        ⟨false, kind, options⟩ codes.tail
    | Option.none => Result.nok t
  | _ => Result.nok t

/-- Modelled from the spec: the caller-side transactional attempt (the
delegation machinery of the tokenizer engine is not under `src/`): on Nok the
event log and the position are restored byte-for-byte, so a failed run has no
visible effect. -/
def attempt (t : Tokenizer) (options : Options) (codes : List Code) :
    Tokenizer × List Code × Bool :=
  match start t options codes with
  | Result.ok t' rest => (t', rest, true)
  | Result.nok _ => (t, codes, false)

/-- The canonical caller configuration: distinct token kinds for the title,
the markers and the inner string. -/
def optsStd : Options := ⟨Token.title, Token.marker, Token.string⟩

/-- A list of plain character units. -/
def codesOf (s : List Char) : List Code := s.map Code.char

/-- The source text covered between positions `a` (inclusive) and `b`
(exclusive). -/
def sliceCodes (codes : List Code) (a b : Nat) : List Code := (codes.take b).drop a

/-- The projection of an event to the fields that determine nesting and
textual extent (the link pointers and content type are irrelevant there). -/
structure Sig where
  eventType : EventType
  token : Token
  point : Nat
  deriving DecidableEq, Repr, Inhabited

/-- Signature of an event. -/
def Event.sig (e : Event) : Sig := ⟨e.eventType, e.token, e.point⟩

/-- Signatures of a whole log. -/
def sigs (events : List Event) : List Sig := events.map Event.sig

/-- Run the nesting stack over a list of event signatures, starting from the
stack `s` of currently open token kinds: an enter pushes, an exit pops its
own kind, and a mismatched or superfluous exit yields `none`.  A list is
stack-balanced exactly when running from `[]` ends in `some []`. -/
def stackRun : List Token → List Sig → Option (List Token)
  | s, [] => some s
  | s, e :: rest =>
    match e.eventType with
    | EventType.enter => stackRun (e.token :: s) rest
    | EventType.exit =>
      match s with
      | [] => Option.none
      | tok :: s' => if e.token = tok then stackRun s' rest else Option.none

/-- The leaf extents of a log: every maximal innermost span, i.e. every enter
event immediately followed by an exit event, yields the extent between their
positions.  The first argument is the pending previous event of the scan. -/
def leafScan : Option Sig → List Sig → List (Nat × Nat)
  | _, [] => []
  | Option.none, e :: rest => leafScan (some e) rest
  | some p, e :: rest =>
    if p.eventType = EventType.enter ∧ e.eventType = EventType.exit then
      (p.point, e.point) :: leafScan Option.none rest
    else leafScan (some e) rest

/-- The pending slot left over after scanning a list of signatures; used to
compose `leafScan` over appended logs. -/
def leafCarry : Option Sig → List Sig → Option Sig
  | p, [] => p
  | Option.none, e :: rest => leafCarry (some e) rest
  | some p, e :: rest =>
    if p.eventType = EventType.enter ∧ e.eventType = EventType.exit then
      leafCarry Option.none rest
    else leafCarry (some e) rest

/-- `tilesFrom p exts q` holds when the extents in `exts`, in order, cover
the interval from `p` to `q` exactly: each extent starts where the previous
one ended, is well-formed, and the last one ends at `q` — no gaps and no
overlaps. -/
def tilesFrom : Nat → List (Nat × Nat) → Nat → Bool
  | p, [], q => p == q
  | p, (a, b) :: rest, q => (a == p) && decide (a ≤ b) && tilesFrom b rest q

/-- Scan for spans of a given token kind whose enter and exit are adjacent in
the log, carrying the pending previous event. -/
def spansOfAux (token : Token) : Option Event → List Event → List (Nat × Nat)
  | _, [] => []
  | Option.none, e :: rest => spansOfAux token (some e) rest
  | some p, e :: rest =>
    if p.eventType = EventType.enter ∧ p.token = token ∧
        e.eventType = EventType.exit ∧ e.token = token then
      (p.point, e.point) :: spansOfAux token Option.none rest
    else spansOfAux token (some e) rest

/-- The extents of all spans of a given token kind whose enter and exit are
adjacent in the log. -/
def spansOf (token : Token) (events : List Event) : List (Nat × Nat) :=
  spansOfAux token Option.none events

/-- A plain title-text character with respect to a delimiter kind: not the
closing character and not part of a line ending (a backslash is allowed and
is treated by the escape state). -/
@[reducible] def plainChar (k : Kind) (c : Char) : Prop :=
  c ≠ k.as_char ∧ c ≠ '\n' ∧ c ≠ '\r'

/-- A horizontal-whitespace character. -/
@[reducible] def wsChar (c : Char) : Prop := c = ' ' ∨ c = '\t'

/-- Whether the remaining input holds a closing character that the text
states of the construct would see unescaped before the end of input: a
backslash escapes an immediately following closing character (and only that
character — after a backslash any other unit is reprocessed as plain text, so
every backslash in text position starts a fresh escape), and the end-of-input
sentinel stops the scan. -/
def hasUnescapedCloser (k : Kind) (codes : List Code) : Bool :=
  match codes with
  | [] => false
  | Code.none :: _ => false
  | Code.carriageReturnLineFeed :: rest => hasUnescapedCloser k rest
  | Code.char c :: rest =>
    if c = '\\' then
      if headCode rest = Code.char k.as_char then hasUnescapedCloser k rest.tail
      else hasUnescapedCloser k rest
    else if c = k.as_char then true
    else hasUnescapedCloser k rest
termination_by codes.length
decreasing_by
  all_goals simp only [List.length_cons]
  all_goals (try simp only [List.length_tail])
  all_goals omega

/-! Basic facts about units and delimiter kinds. -/

theorem headCode_cons (c : Code) (cs : List Code) : headCode (c :: cs) = c := rfl

theorem as_char_cases (k : Kind) : k.as_char = ')' ∨ k.as_char = '"' ∨ k.as_char = '\'' := by
  cases k <;> simp [Kind.as_char]

theorem isEol_ne_closer {c : Code} (k : Kind) (h : isEol c = true) :
    c ≠ Code.char k.as_char := by
  intro hEq
  subst hEq
  cases k <;> simp [isEol, Kind.as_char] at h

theorem isEol_ne_none {c : Code} (h : isEol c = true) : c ≠ Code.none := by
  intro hEq
  subst hEq
  simp [isEol] at h

theorem backslash_ne_closer (k : Kind) : ('\\' : Char) ≠ k.as_char := by
  cases k <;> simp [Kind.as_char]

/-! One-step unfolding lemmas for the state functions, one per source arm. -/

theorem begin_closer {t : Tokenizer} {info : Info} {codes : List Code}
    (h : headCode codes = Code.char info.kind.as_char) :
    begin t info codes =
      Result.ok
        ((((t.enter info.options.marker).consume).exit info.options.marker).exit
          info.options.title) codes.tail := by
  rw [begin.eq_def, if_pos h]

theorem begin_not_closer {t : Tokenizer} {info : Info} {codes : List Code}
    (h : headCode codes ≠ Code.char info.kind.as_char) :
    begin t info codes = at_break (t.enter info.options.string) info codes := by
  rw [begin.eq_def, if_neg h]

theorem at_break_closer {t : Tokenizer} {info : Info} {codes : List Code}
    (h : headCode codes = Code.char info.kind.as_char) :
    at_break t info codes = begin (t.exit info.options.string) info codes := by
  rw [at_break.eq_def, if_pos h]

theorem at_break_none {t : Tokenizer} {info : Info} {codes : List Code}
    (h1 : headCode codes ≠ Code.char info.kind.as_char)
    (h2 : headCode codes = Code.none) :
    at_break t info codes = Result.nok t := by
  rw [at_break.eq_def, if_neg h1, if_pos h2]

theorem at_break_eol_ok {t t' : Tokenizer} {info : Info} {codes rest : List Code}
    (hEol : isEol (headCode codes) = true)
    (hSome : space_or_tab_eol ⟨some ContentType.string, info.connect⟩ t codes =
      some (t', rest)) :
    at_break t info codes = at_break t' { info with connect := true } rest := by
  rw [at_break.eq_def, if_neg (isEol_ne_closer info.kind hEol),
    if_neg (isEol_ne_none hEol), if_pos hEol]
  split
  · rename_i t2 rest2 heq
    rw [hSome] at heq
    injection heq with heq2
    rw [Prod.mk.injEq] at heq2
    rw [heq2.1, heq2.2]
  · rename_i heq
    rw [hSome] at heq
    exact Option.noConfusion heq

theorem at_break_eol_nok {t : Tokenizer} {info : Info} {codes : List Code}
    (hEol : isEol (headCode codes) = true)
    (hNone : space_or_tab_eol ⟨some ContentType.string, info.connect⟩ t codes =
      Option.none) :
    at_break t info codes = Result.nok t := by
  rw [at_break.eq_def, if_neg (isEol_ne_closer info.kind hEol),
    if_neg (isEol_ne_none hEol), if_pos hEol]
  split
  · rename_i t2 rest2 heq
    rw [hNone] at heq
    exact Option.noConfusion heq
  · rfl

theorem at_break_data_connect {t : Tokenizer} {info : Info} {codes : List Code} {c : Char}
    (h : headCode codes = Code.char c) (hc1 : c ≠ info.kind.as_char)
    (hc2 : c ≠ '\n') (hc3 : c ≠ '\r') (hconn : info.connect = true) :
    at_break t info codes =
      title { t.enter_with_content Token.data (some ContentType.string) with
          events := link (t.enter_with_content Token.data (some ContentType.string)).events
            ((t.enter_with_content Token.data (some ContentType.string)).events.length - 1) }
        info codes := by
  have h1 : headCode codes ≠ Code.char info.kind.as_char := by
    rw [h]
    intro hEq
    injection hEq with hch
    exact hc1 hch
  have h2 : headCode codes ≠ Code.none := by
    rw [h]
    exact fun hEq => Code.noConfusion hEq
  have h3 : ¬(isEol (headCode codes) = true) := by
    rw [h]
    simp [isEol]
    exact ⟨hc2, hc3⟩
  rw [at_break.eq_def, if_neg h1, if_neg h2, if_neg h3]
  simp only [hconn, if_true]

theorem at_break_data_fresh {t : Tokenizer} {info : Info} {codes : List Code} {c : Char}
    (h : headCode codes = Code.char c) (hc1 : c ≠ info.kind.as_char)
    (hc2 : c ≠ '\n') (hc3 : c ≠ '\r') (hconn : info.connect = false) :
    at_break t info codes =
      title (t.enter_with_content Token.data (some ContentType.string))
        { info with connect := true } codes := by
  have h1 : headCode codes ≠ Code.char info.kind.as_char := by
    rw [h]
    intro hEq
    injection hEq with hch
    exact hc1 hch
  have h2 : headCode codes ≠ Code.none := by
    rw [h]
    exact fun hEq => Code.noConfusion hEq
  have h3 : ¬(isEol (headCode codes) = true) := by
    rw [h]
    simp [isEol]
    exact ⟨hc2, hc3⟩
  rw [at_break.eq_def, if_neg h1, if_neg h2, if_neg h3]
  simp only [hconn, Bool.false_eq_true, if_false]

theorem title_break {t : Tokenizer} {info : Info} {codes : List Code}
    (h : headCode codes = Code.char info.kind.as_char ∨ headCode codes = Code.none
      ∨ isEol (headCode codes) = true) :
    title t info codes = at_break (t.exit Token.data) info codes := by
  rcases h with h | h
  · rw [title.eq_def, if_pos h]
  · have h1 : headCode codes ≠ Code.char info.kind.as_char := by
      rcases h with h | h
      · rw [h]
        exact fun hEq => Code.noConfusion hEq
      · exact isEol_ne_closer info.kind h
    rw [title.eq_def, if_neg h1, if_pos h]

theorem title_backslash {t : Tokenizer} {info : Info} {codes : List Code}
    (h : headCode codes = Code.char '\\') :
    title t info codes = escape t.consume info codes.tail := by
  have h1 : headCode codes ≠ Code.char info.kind.as_char := by
    rw [h]
    intro hEq
    injection hEq with hch
    exact backslash_ne_closer info.kind hch
  have h2 : ¬(headCode codes = Code.none ∨ isEol (headCode codes) = true) := by
    rw [h]
    rintro (hx | hx)
    · exact Code.noConfusion hx
    · simp [isEol] at hx
  rw [title.eq_def, if_neg h1, if_neg h2, if_pos h]

theorem title_consume {t : Tokenizer} {info : Info} {codes : List Code} {c : Char}
    (h : headCode codes = Code.char c) (hc1 : c ≠ info.kind.as_char)
    (hc2 : c ≠ '\n') (hc3 : c ≠ '\r') (hc4 : c ≠ '\\') :
    title t info codes = title t.consume info codes.tail := by
  have h1 : headCode codes ≠ Code.char info.kind.as_char := by
    rw [h]
    intro hEq
    injection hEq with hch
    exact hc1 hch
  have h2 : ¬(headCode codes = Code.none ∨ isEol (headCode codes) = true) := by
    rw [h]
    rintro (hx | hx)
    · exact Code.noConfusion hx
    · simp [isEol] at hx
      rcases hx with hx | hx
      · exact hc2 hx
      · exact hc3 hx
  have h3 : headCode codes ≠ Code.char '\\' := by
    rw [h]
    intro hEq
    injection hEq with hch
    exact hc4 hch
  rw [title.eq_def, if_neg h1, if_neg h2, if_neg h3]

theorem escape_closer {t : Tokenizer} {info : Info} {codes : List Code}
    (h : headCode codes = Code.char info.kind.as_char) :
    escape t info codes = title t.consume info codes.tail := by
  rw [escape.eq_def, if_pos h]

theorem escape_other {t : Tokenizer} {info : Info} {codes : List Code}
    (h : headCode codes ≠ Code.char info.kind.as_char) :
    escape t info codes = title t info codes := by
  rw [escape.eq_def, if_neg h]

theorem start_opener {t : Tokenizer} {options : Options} {codes : List Code} {m : Char}
    {k : Kind} (h : headCode codes = Code.char m) (hk : Kind.from_char m = some k) :
    start t options codes =
      begin ((((t.enter options.title).enter options.marker).consume).exit options.marker)
        ⟨false, k, options⟩ codes.tail := by
  unfold Kind.from_char at hk
  split at hk
  · injection hk with hk2
    subst hk2
    simp [start, h, Kind.from_code, Kind.from_char]
  · injection hk with hk2
    subst hk2
    simp [start, h, Kind.from_code, Kind.from_char]
  · injection hk with hk2
    subst hk2
    simp [start, h, Kind.from_code, Kind.from_char]
  · exact Option.noConfusion hk

/-! Claim theorems on concrete inputs and simple properties. -/

/-- C3: for every input whose first unit is not one of the three opening
characters — including the end-of-input sentinel and line endings — `start`
returns Nok, appends no events, and does not advance the position (the
returned tokenizer is exactly the input tokenizer). -/
theorem c3_start_nonopener_nok (t : Tokenizer) (options : Options) (codes : List Code)
    (h1 : headCode codes ≠ Code.char '"') (h2 : headCode codes ≠ Code.char '\'')
    (h3 : headCode codes ≠ Code.char '(') :
    start t options codes = Result.nok t := by
  unfold start
  split <;> simp_all

/-- Witness for `c3_start_nonopener_nok` at a concrete non-opening input. -/
theorem c3_witness : start ⟨[], 0⟩ optsStd [Code.char 'x'] = Result.nok ⟨[], 0⟩ :=
  c3_start_nonopener_nok ⟨[], 0⟩ optsStd [Code.char 'x'] (by decide) (by decide) (by decide)

/-- C6: on the input of two double quotes (the empty title) the construct
succeeds with the whole input consumed and the log is exactly Enter(Title),
Enter(Marker), Exit(Marker), Enter(Marker), Exit(Marker), Exit(Title) — no
Data span and no String span. -/
theorem c6_empty_title_events :
    ∃ tf : Tokenizer,
      start ⟨[], 0⟩ optsStd [Code.char '"', Code.char '"'] = Result.ok tf [] ∧
      tf.events =
        [⟨EventType.enter, Token.title, 0, Option.none, Option.none, Option.none⟩,
          ⟨EventType.enter, Token.marker, 0, Option.none, Option.none, Option.none⟩,
          ⟨EventType.exit, Token.marker, 1, Option.none, Option.none, Option.none⟩,
          ⟨EventType.enter, Token.marker, 1, Option.none, Option.none, Option.none⟩,
          ⟨EventType.exit, Token.marker, 2, Option.none, Option.none, Option.none⟩,
          ⟨EventType.exit, Token.title, 2, Option.none, Option.none, Option.none⟩] ∧
      tf.point = 2 ∧
      spansOf Token.data tf.events = [] ∧ spansOf Token.string tf.events = [] := by
  refine ⟨⟨[⟨EventType.enter, Token.title, 0, Option.none, Option.none, Option.none⟩,
    ⟨EventType.enter, Token.marker, 0, Option.none, Option.none, Option.none⟩,
    ⟨EventType.exit, Token.marker, 1, Option.none, Option.none, Option.none⟩,
    ⟨EventType.enter, Token.marker, 1, Option.none, Option.none, Option.none⟩,
    ⟨EventType.exit, Token.marker, 2, Option.none, Option.none, Option.none⟩,
    ⟨EventType.exit, Token.title, 2, Option.none, Option.none, Option.none⟩], 2⟩,
    ?_, rfl, rfl, by decide, by decide⟩
  simp [start, begin, at_break, title, escape, Kind.from_code, Kind.from_char, Kind.as_char,
    headCode, isEol, Tokenizer.enter, Tokenizer.exit, Tokenizer.consume,
    Tokenizer.enter_with_content, optsStd]

/-- C4: on `(a\)b)` the construct succeeds, there is exactly one Data span,
its extent is positions 1 to 5, and the source text it covers is exactly
`a\)b` — the escaped closing paren stays literal content and the title only
closes at the final unescaped closing paren. -/
theorem c4_escaped_closer_literal :
    ∃ tf : Tokenizer,
      start ⟨[], 0⟩ optsStd
          [Code.char '(', Code.char 'a', Code.char '\\', Code.char ')', Code.char 'b',
            Code.char ')'] = Result.ok tf [] ∧
      spansOf Token.data tf.events = [(1, 5)] ∧
      sliceCodes
          [Code.char '(', Code.char 'a', Code.char '\\', Code.char ')', Code.char 'b',
            Code.char ')'] 1 5 =
        [Code.char 'a', Code.char '\\', Code.char ')', Code.char 'b'] := by
  refine ⟨⟨[⟨EventType.enter, Token.title, 0, Option.none, Option.none, Option.none⟩,
    ⟨EventType.enter, Token.marker, 0, Option.none, Option.none, Option.none⟩,
    ⟨EventType.exit, Token.marker, 1, Option.none, Option.none, Option.none⟩,
    ⟨EventType.enter, Token.string, 1, Option.none, Option.none, Option.none⟩,
    ⟨EventType.enter, Token.data, 1, some ContentType.string, Option.none, Option.none⟩,
    ⟨EventType.exit, Token.data, 5, Option.none, Option.none, Option.none⟩,
    ⟨EventType.exit, Token.string, 5, Option.none, Option.none, Option.none⟩,
    ⟨EventType.enter, Token.marker, 5, Option.none, Option.none, Option.none⟩,
    ⟨EventType.exit, Token.marker, 6, Option.none, Option.none, Option.none⟩,
    ⟨EventType.exit, Token.title, 6, Option.none, Option.none, Option.none⟩], 6⟩,
    ?_, by decide, by decide⟩
  simp [start, begin, at_break, title, escape, Kind.from_code, Kind.from_char, Kind.as_char,
    headCode, isEol, Tokenizer.enter, Tokenizer.exit, Tokenizer.consume,
    Tokenizer.enter_with_content, optsStd]

/-- C9: in title text every backslash is consumed and control passes to the
escape state — in particular a backslash immediately following an escaping
backslash — so on `(\\)` the closing paren is consumed as escaped literal
content: the run does not end in Ok at that paren but runs off the end of the
input with the paren consumed (final position 4) and fails. -/
theorem c9_escape_backslash_chain :
    (∀ (t : Tokenizer) (info : Info) (rest : List Code),
      title t info (Code.char '\\' :: rest) = escape t.consume info rest) ∧
    start ⟨[], 0⟩ optsStd [Code.char '(', Code.char '\\', Code.char '\\', Code.char ')'] =
      Result.nok
        ⟨[⟨EventType.enter, Token.title, 0, Option.none, Option.none, Option.none⟩,
          ⟨EventType.enter, Token.marker, 0, Option.none, Option.none, Option.none⟩,
          ⟨EventType.exit, Token.marker, 1, Option.none, Option.none, Option.none⟩,
          ⟨EventType.enter, Token.string, 1, Option.none, Option.none, Option.none⟩,
          ⟨EventType.enter, Token.data, 1, some ContentType.string, Option.none, Option.none⟩,
          ⟨EventType.exit, Token.data, 4, Option.none, Option.none, Option.none⟩], 4⟩ := by
  constructor
  · intro t info rest
    exact title_backslash rfl
  · simp [start, begin, at_break, title, escape, Kind.from_code, Kind.from_char, Kind.as_char,
      headCode, isEol, Tokenizer.enter, Tokenizer.exit, Tokenizer.consume,
      Tokenizer.enter_with_content, optsStd]

/-- C8: deriving a `Kind` from a unit succeeds exactly on the three valid
opening characters; on any other unit — any other character, the CR-LF pair,
or the end-of-input sentinel — the source panics, modelled as `none`, rather
than returning a Nok result; and the panic branch is unreachable under valid
dispatch since an opener always yields a kind. -/
theorem c8_from_code_contract (code : Code) :
    ((code = Code.char '(' ∨ code = Code.char '"' ∨ code = Code.char '\'') →
      ∃ k, Kind.from_code code = some k) ∧
    (¬(code = Code.char '(' ∨ code = Code.char '"' ∨ code = Code.char '\'') →
      Kind.from_code code = Option.none) := by
  constructor
  · rintro (rfl | rfl | rfl)
    · exact ⟨Kind.paren, rfl⟩
    · exact ⟨Kind.double, rfl⟩
    · exact ⟨Kind.single, rfl⟩
  · intro h
    push_neg at h
    obtain ⟨h1, h2, h3⟩ := h
    cases code with
    | none => rfl
    | carriageReturnLineFeed => rfl
    | char c =>
      unfold Kind.from_code Kind.from_char
      split <;> simp_all

/-- Witness for `c8_from_code_contract`: an opener yields a kind, a
non-opener character yields the modelled panic. -/
theorem c8_witness :
    (∃ k, Kind.from_code (Code.char '(') = some k) ∧
      Kind.from_code (Code.char 'x') = Option.none :=
  ⟨(c8_from_code_contract (Code.char '(')).1 (Or.inl rfl),
    (c8_from_code_contract (Code.char 'x')).2 (by decide)⟩

/-- C10: a successful line-ending delegation in `at_break` always resumes
`at_break` with the connect flag set, even when no Data span exists yet; so
for a title whose body starts with a line ending right after the opening
marker, the first Data span is linked on creation (its enter event carries a
`previous` pointer to the line-ending span, which in turn points back). -/
theorem c10_connect_after_eol :
    (∀ (t t' : Tokenizer) (info : Info) (codes rest : List Code),
        isEol (headCode codes) = true →
        space_or_tab_eol ⟨some ContentType.string, info.connect⟩ t codes = some (t', rest) →
        at_break t info codes = at_break t' { info with connect := true } rest) ∧
    ∃ tf : Tokenizer,
      start ⟨[], 0⟩ optsStd [Code.char '"', Code.char '\n', Code.char 'a', Code.char '"'] =
        Result.ok tf [] ∧
      (tf.events.getD 6 default).eventType = EventType.enter ∧
      (tf.events.getD 6 default).token = Token.data ∧
      (tf.events.getD 6 default).previous = some 4 ∧
      (tf.events.getD 4 default).token = Token.lineEnding ∧
      (tf.events.getD 4 default).next = some 6 := by
  constructor
  · intro t t' info codes rest hEol hSome
    exact at_break_eol_ok hEol hSome
  · refine ⟨⟨[⟨EventType.enter, Token.title, 0, Option.none, Option.none, Option.none⟩,
      ⟨EventType.enter, Token.marker, 0, Option.none, Option.none, Option.none⟩,
      ⟨EventType.exit, Token.marker, 1, Option.none, Option.none, Option.none⟩,
      ⟨EventType.enter, Token.string, 1, Option.none, Option.none, Option.none⟩,
      ⟨EventType.enter, Token.lineEnding, 1, some ContentType.string, Option.none, some 6⟩,
      ⟨EventType.exit, Token.lineEnding, 2, Option.none, Option.none, Option.none⟩,
      ⟨EventType.enter, Token.data, 2, some ContentType.string, some 4, Option.none⟩,
      ⟨EventType.exit, Token.data, 3, Option.none, Option.none, Option.none⟩,
      ⟨EventType.exit, Token.string, 3, Option.none, Option.none, Option.none⟩,
      ⟨EventType.enter, Token.marker, 3, Option.none, Option.none, Option.none⟩,
      ⟨EventType.exit, Token.marker, 4, Option.none, Option.none, Option.none⟩,
      ⟨EventType.exit, Token.title, 4, Option.none, Option.none, Option.none⟩], 4⟩,
      ?_, by decide, by decide, by decide, by decide, by decide⟩
    simp [start, begin, at_break, title, escape, space_or_tab_eol, count_space_or_tab, link,
      Kind.from_code, Kind.from_char, Kind.as_char, headCode, isEol, Tokenizer.enter,
      Tokenizer.exit, Tokenizer.consume, Tokenizer.enter_with_content, optsStd]

/-- Witness for `c10_connect_after_eol`: the delegation equation at a
concrete tokenizer and input. -/
theorem c10_witness :
    at_break ⟨[], 0⟩ ⟨false, Kind.double, optsStd⟩ [Code.char '\n', Code.char 'a'] =
      at_break
        ⟨[⟨EventType.enter, Token.lineEnding, 0, some ContentType.string, Option.none,
            Option.none⟩,
          ⟨EventType.exit, Token.lineEnding, 1, Option.none, Option.none, Option.none⟩], 1⟩
        ⟨true, Kind.double, optsStd⟩ [Code.char 'a'] :=
  c10_connect_after_eol.1 ⟨[], 0⟩ _ ⟨false, Kind.double, optsStd⟩ _ _ (by decide) (by decide)

/-! Consumption of plain title text and the blank-line failure path. -/

theorem title_backslash_cons (t : Tokenizer) (info : Info) (l : List Code) :
    title t info (Code.char '\\' :: l) = escape t.consume info l := by
  have h : headCode (Code.char '\\' :: l) = Code.char '\\' := rfl
  rw [title_backslash h]
  rfl

theorem title_consume_cons (t : Tokenizer) (info : Info) {c : Char} (l : List Code)
    (hc1 : c ≠ info.kind.as_char) (hc2 : c ≠ '\n') (hc3 : c ≠ '\r') (hc4 : c ≠ '\\') :
    title t info (Code.char c :: l) = title t.consume info l := by
  have h : headCode (Code.char c :: l) = Code.char c := rfl
  rw [title_consume h hc1 hc2 hc3 hc4]
  rfl

theorem title_break_eol_cons (t : Tokenizer) (info : Info) {e : Code}
    (he : isEol e = true) (l : List Code) :
    title t info (e :: l) = at_break (t.exit Token.data) info (e :: l) := by
  apply title_break
  right
  right
  rw [headCode_cons]
  exact he

theorem title_congr_point {info : Info} {rest : List Code} {ev : List Event} {p q : Nat}
    (h : p = q) : title ⟨ev, p⟩ info rest = title ⟨ev, q⟩ info rest := by
  rw [h]

/-- Plain text (no closing character, no line-ending character) is consumed by
the title-text state one unit at a time, advancing only the position; a
trailing backslash is safe as long as the remainder does not begin with the
closing character. -/
theorem title_text {info : Info} (text : List Char)
    (htext : ∀ c ∈ text, plainChar info.kind c) :
    ∀ (t : Tokenizer) (rest : List Code), headCode rest ≠ Code.char info.kind.as_char →
      title t info (codesOf text ++ rest) =
        title ⟨t.events, t.point + text.length⟩ info rest := by
  induction text with
  | nil =>
    intro t rest hrest
    simp [codesOf]
  | cons c cs ih =>
    intro t rest hrest
    obtain ⟨hc1, hc2, hc3⟩ := htext c (List.mem_cons_self c cs)
    have htcs : ∀ x ∈ cs, plainChar info.kind x :=
      fun x hm => htext x (List.mem_cons_of_mem c hm)
    have hshape : codesOf (c :: cs) ++ rest = Code.char c :: (codesOf cs ++ rest) := by
      simp [codesOf]
    by_cases hb : c = '\\'
    · subst hb
      rw [hshape, title_backslash_cons]
      cases cs with
      | nil =>
        simp only [codesOf, List.map_nil, List.nil_append]
        rw [escape_other hrest]
        rfl
      | cons c2 cs2 =>
        have hne : headCode (codesOf (c2 :: cs2) ++ rest) ≠ Code.char info.kind.as_char := by
          simp only [codesOf, List.map_cons, List.cons_append, headCode_cons]
          intro hEq
          injection hEq with hch
          exact (htcs c2 (List.mem_cons_self c2 cs2)).1 hch
        rw [escape_other hne, ih htcs t.consume rest hrest]
        exact title_congr_point (by simp [Tokenizer.consume, List.length_cons]; omega)
    · rw [hshape, title_consume_cons t info (codesOf cs ++ rest) hc1 hc2 hc3 hb,
        ih htcs t.consume rest hrest]
      exact title_congr_point (by simp [Tokenizer.consume, List.length_cons]; omega)

/-- Horizontal whitespace is counted up to the first non-whitespace unit. -/
theorem count_ws_append (ws : List Char) (hws : ∀ c ∈ ws, wsChar c) (after : List Code)
    (hafter : headCode after ≠ Code.char ' ' ∧ headCode after ≠ Code.char '\t') :
    count_space_or_tab (codesOf ws ++ after) = ws.length := by
  induction ws with
  | nil =>
    simp only [codesOf, List.map_nil, List.nil_append, List.length_nil]
    cases after with
    | nil => rfl
    | cons a rest =>
      unfold count_space_or_tab
      split <;> simp_all [headCode]
  | cons c cs ih =>
    have ihh := ih (fun x hm => hws x (List.mem_cons_of_mem c hm))
    rcases hws c (List.mem_cons_self c cs) with hc | hc <;> subst hc <;>
      simp only [codesOf, List.map_cons, List.cons_append, List.length_cons] <;>
      rw [count_space_or_tab] <;>
      simp only [codesOf] at ihh <;> rw [ihh]

/-- The line-ending sub-automaton rejects a blank line: a line ending followed
— after only horizontal whitespace — by another line ending or the end of the
input yields `none`. -/
theorem space_or_tab_eol_blank {opts : EolOptions} {t : Tokenizer} {e : Code}
    (hEol : isEol e = true) (ws : List Char) (hws : ∀ c ∈ ws, wsChar c)
    (after : List Code) (hafter : isEol (headCode after) = true ∨ after = []) :
    space_or_tab_eol opts t (e :: (codesOf ws ++ after)) = Option.none := by
  have hafter2 : headCode after ≠ Code.char ' ' ∧ headCode after ≠ Code.char '\t' := by
    rcases hafter with h | h
    · constructor <;> intro hEq <;> rw [hEq] at h <;> simp [isEol] at h
    · subst h
      exact ⟨fun hEq => Code.noConfusion hEq, fun hEq => Code.noConfusion hEq⟩
  have hcount := count_ws_append ws hws after hafter2
  have hdrop : (codesOf ws ++ after).drop ws.length = after := by
    have hlen : ws.length = (codesOf ws).length := by simp [codesOf]
    rw [hlen, List.drop_left]
  simp only [space_or_tab_eol, hEol, if_true, hcount, hdrop]
  rcases hafter with h | h
  · simp [h]
  · subst h
    simp [headCode]

/-- In `at_break`, a line ending leading into a blank line makes the whole
construct fail. -/
theorem at_break_blank_nok {t : Tokenizer} {info : Info} {e : Code} (hEol : isEol e = true)
    (ws : List Char) (hws : ∀ c ∈ ws, wsChar c) (after : List Code)
    (hafter : isEol (headCode after) = true ∨ after = []) :
    at_break t info (e :: (codesOf ws ++ after)) = Result.nok t := by
  have hEol2 : isEol (headCode (e :: (codesOf ws ++ after))) = true := by
    rw [headCode_cons]
    exact hEol
  exact at_break_eol_nok hEol2 (space_or_tab_eol_blank hEol ws hws after hafter)

/-- A title whose body runs its first line into a blank line fails from the
start state, whatever the surrounding state of the tokenizer. -/
theorem start_blank_nok (t : Tokenizer) (options : Options) (m : Char) (k : Kind)
    (hk : Kind.from_char m = some k) (text : List Char)
    (htext : ∀ c ∈ text, plainChar k c) (e1 : Code) (he1 : isEol e1 = true)
    (ws : List Char) (hws : ∀ c ∈ ws, wsChar c) (after : List Code)
    (hafter : isEol (headCode after) = true ∨ after = []) :
    ∃ tn, start t options (Code.char m :: (codesOf text ++ e1 :: (codesOf ws ++ after))) =
      Result.nok tn := by
  have hm : headCode (Code.char m :: (codesOf text ++ e1 :: (codesOf ws ++ after))) =
      Code.char m := rfl
  rw [start_opener hm hk]
  simp only [List.tail_cons]
  cases text with
  | nil =>
    rw [show codesOf [] ++ (e1 :: (codesOf ws ++ after)) = e1 :: (codesOf ws ++ after)
      from rfl]
    have hbc : headCode (e1 :: (codesOf ws ++ after)) ≠
        Code.char (⟨false, k, options⟩ : Info).kind.as_char := by
      rw [headCode_cons]
      exact isEol_ne_closer k he1
    rw [begin_not_closer hbc]
    exact ⟨_, at_break_blank_nok he1 ws hws after hafter⟩
  | cons c cs =>
    obtain ⟨hc1, hc2, hc3⟩ := htext c (List.mem_cons_self c cs)
    have hshape : codesOf (c :: cs) ++ (e1 :: (codesOf ws ++ after)) =
        Code.char c :: (codesOf cs ++ (e1 :: (codesOf ws ++ after))) := by
      simp [codesOf]
    rw [hshape]
    have hbc : headCode (Code.char c :: (codesOf cs ++ (e1 :: (codesOf ws ++ after)))) ≠
        Code.char (⟨false, k, options⟩ : Info).kind.as_char := by
      rw [headCode_cons]
      intro hEq
      injection hEq with hch
      exact hc1 hch
    rw [begin_not_closer hbc]
    have hhead : headCode (Code.char c :: (codesOf cs ++ (e1 :: (codesOf ws ++ after)))) =
        Code.char c := rfl
    have hconn : (⟨false, k, options⟩ : Info).connect = false := rfl
    rw [at_break_data_fresh hhead hc1 hc2 hc3 hconn]
    rw [show Code.char c :: (codesOf cs ++ (e1 :: (codesOf ws ++ after))) =
      codesOf (c :: cs) ++ (e1 :: (codesOf ws ++ after)) from hshape.symm]
    have hne : headCode (e1 :: (codesOf ws ++ after)) ≠
        Code.char ({ (⟨false, k, options⟩ : Info) with connect := true } : Info).kind.as_char := by
      rw [headCode_cons]
      exact isEol_ne_closer k he1
    rw [title_text (c :: cs) htext _ _ hne]
    rw [title_break_eol_cons _ _ he1]
    exact ⟨_, at_break_blank_nok he1 ws hws after hafter⟩

/-- C2: an input of the form opening marker, plain title text, a line ending,
then — after only horizontal whitespace — a second line ending or the end of
input (a blank line inside the title body) makes the construct fail with Nok,
and the attempting caller sees the event log and position byte-for-byte
unchanged from before `start` was called. -/
theorem c2_blank_line_nok (t : Tokenizer) (options : Options) (m : Char) (k : Kind)
    (hk : Kind.from_char m = some k) (text : List Char)
    (htext : ∀ c ∈ text, plainChar k c) (e1 : Code) (he1 : isEol e1 = true)
    (ws : List Char) (hws : ∀ c ∈ ws, wsChar c) (e2 : Code) (he2 : isEol e2 = true)
    (tail : List Code) :
    attempt t options (Code.char m :: (codesOf text ++ e1 :: (codesOf ws ++ e2 :: tail))) =
      (t, Code.char m :: (codesOf text ++ e1 :: (codesOf ws ++ e2 :: tail)), false) ∧
    attempt t options (Code.char m :: (codesOf text ++ e1 :: codesOf ws)) =
      (t, Code.char m :: (codesOf text ++ e1 :: codesOf ws), false) := by
  constructor
  · obtain ⟨tn, hnok⟩ := start_blank_nok t options m k hk text htext e1 he1 ws hws
      (e2 :: tail) (Or.inl (by rw [headCode_cons]; exact he2))
    simp [attempt, hnok]
  · obtain ⟨tn, hnok⟩ := start_blank_nok t options m k hk text htext e1 he1 ws hws
      [] (Or.inr rfl)
    rw [List.append_nil] at hnok
    simp [attempt, hnok]

/-- Witness for `c2_blank_line_nok`: the concrete blank-line inputs built
from a double quote, the text `a`, and line feeds. -/
theorem c2_witness :
    attempt ⟨[], 0⟩ optsStd
        [Code.char '"', Code.char 'a', Code.char '\n', Code.char '\n', Code.char 'b'] =
      (⟨[], 0⟩,
        [Code.char '"', Code.char 'a', Code.char '\n', Code.char '\n', Code.char 'b'],
        false) ∧
    attempt ⟨[], 0⟩ optsStd [Code.char '"', Code.char 'a', Code.char '\n'] =
      (⟨[], 0⟩, [Code.char '"', Code.char 'a', Code.char '\n'], false) := by
  exact c2_blank_line_nok ⟨[], 0⟩ optsStd '"' Kind.double (by decide) ['a'] (by decide)
    (Code.char '\n') (by decide) [] (by decide) (Code.char '\n') (by decide) [Code.char 'b']

/-! The successful multi-line run and its linked chain of content spans. -/

/-- Backslash-free plain text is consumed by the title-text state one unit at
a time, whatever comes after it. -/
theorem title_text_noesc {info : Info} (text : List Char)
    (htext : ∀ c ∈ text, plainChar info.kind c ∧ c ≠ '\\') :
    ∀ (t : Tokenizer) (rest : List Code),
      title t info (codesOf text ++ rest) =
        title ⟨t.events, t.point + text.length⟩ info rest := by
  induction text with
  | nil =>
    intro t rest
    simp [codesOf]
  | cons c cs ih =>
    intro t rest
    obtain ⟨⟨hc1, hc2, hc3⟩, hc4⟩ := htext c (List.mem_cons_self c cs)
    have htcs : ∀ x ∈ cs, plainChar info.kind x ∧ x ≠ '\\' :=
      fun x hm => htext x (List.mem_cons_of_mem c hm)
    have hshape : codesOf (c :: cs) ++ rest = Code.char c :: (codesOf cs ++ rest) := by
      simp [codesOf]
    rw [hshape, title_consume_cons t info (codesOf cs ++ rest) hc1 hc2 hc3 hc4,
      ih htcs t.consume rest]
    exact title_congr_point (by simp [Tokenizer.consume, List.length_cons]; omega)

/-- The line-ending sub-automaton on a line ending followed directly by
ordinary text (no following whitespace, no blank line), with the connect flag
set: it emits one linked lineEnding span covering the line ending. -/
theorem space_or_tab_eol_ok_connect {opts : EolOptions} (hconn : opts.connect = true)
    {t : Tokenizer} {e : Code} (hEol : isEol e = true) {c : Char} {l : List Code}
    (hc : headCode l = Code.char c) (hsp : c ≠ ' ') (htb : c ≠ '\t')
    (hnl : c ≠ '\n') (hcr : c ≠ '\r') :
    space_or_tab_eol opts t (e :: l) =
      some
        (⟨link (t.events ++
            [⟨EventType.enter, Token.lineEnding, t.point, opts.content_type, Option.none,
              Option.none⟩]) t.events.length ++
          [⟨EventType.exit, Token.lineEnding, t.point + 1, Option.none, Option.none,
            Option.none⟩], t.point + 1⟩, l) := by
  have hcount : count_space_or_tab l = 0 := by
    cases l with
    | nil => rfl
    | cons a rest =>
      rw [headCode_cons] at hc
      subst hc
      unfold count_space_or_tab
      split <;> simp_all
  have hbl : (isEol (headCode l) || (headCode l == Code.none)) = false := by
    rw [hc]
    simp [isEol, hnl, hcr]
  simp only [space_or_tab_eol, hEol, if_true, hconn, hcount, hbl, List.drop_zero,
    Tokenizer.enter_with_content, Tokenizer.exit, List.length_append, List.length_cons,
    List.length_nil, Nat.add_zero, Nat.add_sub_cancel, Bool.false_eq_true, if_false]

/-- C5: an input of an opening marker, a first line of plain backslash-free
text, a single line ending, a second line of such text, then the closing
character, succeeds; it produces exactly two Data spans, both tagged with the
String content type, and they are linked in log order into one chain running
through the intervening line-ending span: first Data span (events 4 and 5),
line-ending span (events 6 and 7), second Data span (events 8 and 9). -/
theorem c5_multiline_linked (m : Char) (k : Kind) (hk : Kind.from_char m = some k)
    (c1 : Char) (cs1 : List Char)
    (ht1 : ∀ c ∈ c1 :: cs1, plainChar k c ∧ c ≠ '\\')
    (c2 : Char) (cs2 : List Char)
    (ht2 : ∀ c ∈ c2 :: cs2, plainChar k c ∧ c ≠ '\\')
    (hc2a : c2 ≠ ' ') (hc2b : c2 ≠ '\t') (e : Code) (he : isEol e = true) :
    ∃ tf : Tokenizer,
      start ⟨[], 0⟩ optsStd
          (Code.char m ::
            (codesOf (c1 :: cs1) ++ e :: (codesOf (c2 :: cs2) ++ [Code.char k.as_char]))) =
        Result.ok tf [] ∧
      (tf.events.getD 4 default).eventType = EventType.enter ∧
      (tf.events.getD 4 default).token = Token.data ∧
      (tf.events.getD 4 default).content_type = some ContentType.string ∧
      (tf.events.getD 8 default).eventType = EventType.enter ∧
      (tf.events.getD 8 default).token = Token.data ∧
      (tf.events.getD 8 default).content_type = some ContentType.string ∧
      spansOf Token.data tf.events =
        [(1, 1 + (c1 :: cs1).length),
          (2 + (c1 :: cs1).length, 2 + (c1 :: cs1).length + (c2 :: cs2).length)] ∧
      (tf.events.getD 4 default).next = some 6 ∧
      (tf.events.getD 6 default).token = Token.lineEnding ∧
      (tf.events.getD 6 default).previous = some 4 ∧
      (tf.events.getD 6 default).next = some 8 ∧
      (tf.events.getD 8 default).previous = some 6 := by
  obtain ⟨⟨h1a, h1b, h1c⟩, h1d⟩ := ht1 c1 (List.mem_cons_self c1 cs1)
  obtain ⟨⟨h2a, h2b, h2c⟩, h2d⟩ := ht2 c2 (List.mem_cons_self c2 cs2)
  apply Exists.intro
  constructor
  · have hm : headCode (Code.char m ::
        (codesOf (c1 :: cs1) ++ e :: (codesOf (c2 :: cs2) ++ [Code.char k.as_char]))) =
        Code.char m := rfl
    rw [start_opener hm hk]
    simp only [List.tail_cons]
    have hshape1 : codesOf (c1 :: cs1) ++ e :: (codesOf (c2 :: cs2) ++ [Code.char k.as_char]) =
        Code.char c1 :: (codesOf cs1 ++ e :: (codesOf (c2 :: cs2) ++ [Code.char k.as_char])) := by
      simp [codesOf]
    rw [hshape1]
    have hbc : headCode (Code.char c1 ::
        (codesOf cs1 ++ e :: (codesOf (c2 :: cs2) ++ [Code.char k.as_char]))) ≠
        Code.char (⟨false, k, optsStd⟩ : Info).kind.as_char := by
      rw [headCode_cons]
      intro hEq
      injection hEq with hch
      exact h1a hch
    rw [begin_not_closer hbc]
    have hhead1 : headCode (Code.char c1 ::
        (codesOf cs1 ++ e :: (codesOf (c2 :: cs2) ++ [Code.char k.as_char]))) =
        Code.char c1 := rfl
    have hconn0 : (⟨false, k, optsStd⟩ : Info).connect = false := rfl
    rw [at_break_data_fresh hhead1 h1a h1b h1c hconn0]
    rw [show Code.char c1 ::
        (codesOf cs1 ++ e :: (codesOf (c2 :: cs2) ++ [Code.char k.as_char])) =
      codesOf (c1 :: cs1) ++ (e :: (codesOf (c2 :: cs2) ++ [Code.char k.as_char]))
      from hshape1.symm]
    rw [title_text_noesc (c1 :: cs1) ht1 _ _]
    rw [title_break_eol_cons _ _ he]
    have hconn1 : ({ (⟨false, k, optsStd⟩ : Info) with connect := true} : Info).connect =
        true := rfl
    have hc2h : headCode (codesOf (c2 :: cs2) ++ [Code.char k.as_char]) = Code.char c2 := by
      simp [codesOf, headCode]
    have hEol2 : isEol (headCode
        (e :: (codesOf (c2 :: cs2) ++ [Code.char k.as_char]))) = true := by
      rw [headCode_cons]
      exact he
    rw [at_break_eol_ok hEol2
      (space_or_tab_eol_ok_connect hconn1 he hc2h hc2a hc2b h2b h2c)]
    have hshape2 : codesOf (c2 :: cs2) ++ [Code.char k.as_char] =
        Code.char c2 :: (codesOf cs2 ++ [Code.char k.as_char]) := by
      simp [codesOf]
    rw [hshape2]
    have hhead2 : headCode (Code.char c2 :: (codesOf cs2 ++ [Code.char k.as_char])) =
        Code.char c2 := rfl
    have hconn2 : ({ ({ (⟨false, k, optsStd⟩ : Info) with connect := true} : Info) with
        connect := true} : Info).connect = true := rfl
    rw [at_break_data_connect hhead2 h2a h2b h2c hconn2]
    rw [show Code.char c2 :: (codesOf cs2 ++ [Code.char k.as_char]) =
      codesOf (c2 :: cs2) ++ [Code.char k.as_char] from hshape2.symm]
    rw [title_text_noesc (c2 :: cs2) ht2 _ _]
    have hclose : headCode [Code.char k.as_char] =
        Code.char ({ ({ (⟨false, k, optsStd⟩ : Info) with connect := true} : Info) with
          connect := true} : Info).kind.as_char := rfl
    rw [title_break (Or.inl hclose), at_break_closer hclose, begin_closer hclose]
    rfl
  · simp [Tokenizer.enter, Tokenizer.exit, Tokenizer.consume,
      Tokenizer.enter_with_content, link, optsStd, spansOf, spansOfAux, List.getD]
    try omega

/-- Witness for `c5_multiline_linked`: the concrete input with a double-quoted
title `a`, line feed, `b`. -/
theorem c5_witness :
    ∃ tf : Tokenizer,
      start ⟨[], 0⟩ optsStd
          [Code.char '"', Code.char 'a', Code.char '\n', Code.char 'b', Code.char '"'] =
        Result.ok tf [] ∧
      (tf.events.getD 4 default).eventType = EventType.enter ∧
      (tf.events.getD 4 default).token = Token.data ∧
      (tf.events.getD 4 default).content_type = some ContentType.string ∧
      (tf.events.getD 8 default).eventType = EventType.enter ∧
      (tf.events.getD 8 default).token = Token.data ∧
      (tf.events.getD 8 default).content_type = some ContentType.string ∧
      spansOf Token.data tf.events = [(1, 2), (3, 4)] ∧
      (tf.events.getD 4 default).next = some 6 ∧
      (tf.events.getD 6 default).token = Token.lineEnding ∧
      (tf.events.getD 6 default).previous = some 4 ∧
      (tf.events.getD 6 default).next = some 8 ∧
      (tf.events.getD 8 default).previous = some 6 := by
  exact c5_multiline_linked '"' Kind.double (by decide) 'a' [] (by decide) 'b' []
    (by decide) (by decide) (by decide) (Code.char '\n') (by decide)

/-! Signature, balance and tiling infrastructure for the round-trip invariant. -/

theorem sigs_append (a b : List Event) : sigs (a ++ b) = sigs a ++ sigs b := by
  simp [sigs]

theorem sigs_enter (t : Tokenizer) (tok : Token) :
    sigs (t.enter tok).events = sigs t.events ++ [⟨EventType.enter, tok, t.point⟩] := by
  simp [Tokenizer.enter, sigs, Event.sig]

theorem sigs_enter_wc (t : Tokenizer) (tok : Token) (ct : Option ContentType) :
    sigs (t.enter_with_content tok ct).events =
      sigs t.events ++ [⟨EventType.enter, tok, t.point⟩] := by
  simp [Tokenizer.enter_with_content, sigs, Event.sig]

theorem sigs_exit (t : Tokenizer) (tok : Token) :
    sigs (t.exit tok).events = sigs t.events ++ [⟨EventType.exit, tok, t.point⟩] := by
  simp [Tokenizer.exit, sigs, Event.sig]

theorem sigs_set_preserve (l : List Event) (i : Nat) (e : Event)
    (h : Event.sig e = Event.sig (l.getD i default)) : sigs (l.set i e) = sigs l := by
  induction l generalizing i with
  | nil => simp
  | cons a rest ih =>
    cases i with
    | zero =>
      simp only [List.getD_cons_zero] at h
      simp [sigs, List.set, h]
    | succ n =>
      simp only [List.getD_cons_succ] at h
      simp only [sigs, List.set, List.map_cons, List.cons.injEq, true_and]
      exact ih n h

theorem sig_getD_set (l : List Event) (j i : Nat) (x : Event)
    (hx : Event.sig x = Event.sig (l.getD j default)) :
    Event.sig ((l.set j x).getD i default) = Event.sig (l.getD i default) := by
  induction l generalizing i j with
  | nil => simp
  | cons a rest ih =>
    cases j with
    | zero =>
      cases i with
      | zero => simpa using hx
      | succ n => simp
    | succ m =>
      cases i with
      | zero => simp
      | succ n =>
        simp only [List.getD_cons_succ] at hx ⊢
        simp only [List.set]
        exact ih m n hx

theorem sigs_link (evs : List Event) (i : Nat) : sigs (link evs i) = sigs evs := by
  unfold link
  rw [sigs_set_preserve _ i _ (by
    rw [sig_getD_set evs (i - 2) i _ (by rfl)]
    rfl)]
  exact sigs_set_preserve _ _ _ (by rfl)

theorem stackRun_append (s : List Token) (a b : List Sig) :
    stackRun s (a ++ b) = (stackRun s a).bind (fun s2 => stackRun s2 b) := by
  induction a generalizing s with
  | nil => simp [stackRun]
  | cons e rest ih =>
    simp only [List.cons_append, stackRun]
    cases he : e.eventType with
    | enter => exact ih (e.token :: s)
    | exit =>
      cases s with
      | nil => simp
      | cons tok s2 =>
        by_cases ht : e.token = tok
        · simp only [ht, if_true]
          exact ih s2
        · simp [ht]

theorem leafScan_append (p : Option Sig) (a b : List Sig) :
    leafScan p (a ++ b) = leafScan p a ++ leafScan (leafCarry p a) b := by
  induction a generalizing p with
  | nil =>
    cases p <;> simp [leafScan, leafCarry]
  | cons e rest ih =>
    cases p with
    | none => simpa [leafScan, leafCarry] using ih (some e)
    | some q =>
      by_cases hq : q.eventType = EventType.enter ∧ e.eventType = EventType.exit
      · simp only [List.cons_append, leafScan, leafCarry, if_pos hq, List.append_eq]
        rw [ih Option.none]
      · simp only [List.cons_append, leafScan, leafCarry, if_neg hq]
        exact ih (some e)

theorem leafScan_some_exit (s : Sig) (hs : s.eventType = EventType.exit) (l : List Sig) :
    leafScan (some s) l = leafScan Option.none l := by
  cases l with
  | nil => rfl
  | cons e rest =>
    simp [leafScan, hs]

theorem leafScan_cons_enter (p : Sig) (e : Sig) (he : e.eventType = EventType.enter)
    (rest : List Sig) : leafScan (some p) (e :: rest) = leafScan Option.none (e :: rest) := by
  simp [leafScan, he]

theorem tilesFrom_compose {p q r : Nat} {l1 l2 : List (Nat × Nat)}
    (h1 : tilesFrom p l1 q = true) (h2 : tilesFrom q l2 r = true) :
    tilesFrom p (l1 ++ l2) r = true := by
  induction l1 generalizing p with
  | nil =>
    simp only [tilesFrom, beq_iff_eq] at h1
    subst h1
    simpa using h2
  | cons ab rest ih =>
    obtain ⟨a, b⟩ := ab
    simp only [tilesFrom, Bool.and_eq_true, beq_iff_eq, decide_eq_true_eq] at h1
    obtain ⟨⟨ha, hab⟩, hrest⟩ := h1
    simp only [List.cons_append, tilesFrom, Bool.and_eq_true, beq_iff_eq, decide_eq_true_eq]
    exact ⟨⟨ha, hab⟩, ih hrest⟩

theorem count_space_or_tab_le (l : List Code) : count_space_or_tab l ≤ l.length := by
  induction l with
  | nil => simp [count_space_or_tab]
  | cons c rest ih =>
    unfold count_space_or_tab
    split <;> simp_all <;> omega

/-- Characterisation of a successful run of the line-ending sub-automaton:
it consumes a nonempty prefix and appends exactly one lineEnding span
covering it. -/
theorem space_or_tab_eol_spec {opts : EolOptions} {t : Tokenizer} {codes : List Code}
    {t1 : Tokenizer} {rest1 : List Code}
    (h : space_or_tab_eol opts t codes = some (t1, rest1)) :
    ∃ pre1 : List Code, codes = pre1 ++ rest1 ∧ 1 ≤ pre1.length ∧
      t1.point = t.point + pre1.length ∧
      sigs t1.events = sigs t.events ++
        [⟨EventType.enter, Token.lineEnding, t.point⟩,
          ⟨EventType.exit, Token.lineEnding, t1.point⟩] := by
  cases codes with
  | nil => simp [space_or_tab_eol] at h
  | cons c rest =>
    have hle := count_space_or_tab_le rest
    by_cases hconn : opts.connect = true
    · simp only [space_or_tab_eol, hconn, if_true] at h
      split at h
      · split at h
        · simp at h
        · simp only [Option.some.injEq, Prod.mk.injEq] at h
          obtain ⟨ht1, hrest1⟩ := h
          subst ht1
          subst hrest1
          refine ⟨c :: rest.take (count_space_or_tab rest), ?_, by simp, ?_, ?_⟩
          · simp [List.take_append_drop]
          · show t.point + 1 + count_space_or_tab rest =
              t.point + (c :: rest.take (count_space_or_tab rest)).length
            simp only [List.length_cons, List.length_take]
            omega
          · show sigs (link (t.enter_with_content Token.lineEnding
                opts.content_type).events
                ((t.enter_with_content Token.lineEnding
                  opts.content_type).events.length - 1) ++
              [⟨EventType.exit, Token.lineEnding, t.point + 1 + count_space_or_tab rest,
                Option.none, Option.none, Option.none⟩]) =
              sigs t.events ++
                [⟨EventType.enter, Token.lineEnding, t.point⟩,
                  ⟨EventType.exit, Token.lineEnding,
                    t.point + 1 + count_space_or_tab rest⟩]
            rw [sigs_append, sigs_link, sigs_enter_wc]
            simp [sigs, Event.sig]
      · simp at h
    · simp only [space_or_tab_eol, hconn, if_false, Bool.false_eq_true] at h
      split at h
      · split at h
        · simp at h
        · simp only [Option.some.injEq, Prod.mk.injEq] at h
          obtain ⟨ht1, hrest1⟩ := h
          subst ht1
          subst hrest1
          refine ⟨c :: rest.take (count_space_or_tab rest), ?_, by simp, ?_, ?_⟩
          · simp [List.take_append_drop]
          · show t.point + 1 + count_space_or_tab rest =
              t.point + (c :: rest.take (count_space_or_tab rest)).length
            simp only [List.length_cons, List.length_take]
            omega
          · show sigs ((t.enter_with_content Token.lineEnding
                opts.content_type).events ++
              [⟨EventType.exit, Token.lineEnding, t.point + 1 + count_space_or_tab rest,
                Option.none, Option.none, Option.none⟩]) =
              sigs t.events ++
                [⟨EventType.enter, Token.lineEnding, t.point⟩,
                  ⟨EventType.exit, Token.lineEnding,
                    t.point + 1 + count_space_or_tab rest⟩]
            rw [sigs_append, sigs_enter_wc]
            simp [sigs, Event.sig]
      · simp at h

/-- The central invariant of the four state functions, proved by strong
induction on the lexicographic measure used for their termination: whenever a
state function returns Ok, the input decomposes as a consumed part ending
with the closing character, the event log grows by a suffix that closes
exactly the spans open at that state, and the extents of the emitted
innermost spans tile the consumed input exactly. -/
theorem construct_invariants : ∀ N : Nat, ∀ (t : Tokenizer) (info : Info) (codes : List Code),
    ((codes.length * 10 +
        (if headCode codes = Code.char info.kind.as_char then 0 else 8) < N) →
      ∀ (t' : Tokenizer) (rest : List Code), begin t info codes = Result.ok t' rest →
        ∃ (pre : List Code) (new : List Sig),
          codes = pre ++ Code.char info.kind.as_char :: rest ∧
          sigs t'.events = sigs t.events ++ new ∧
          t'.point = t.point + (pre.length + 1) ∧
          stackRun [info.options.title] new = some [] ∧
          tilesFrom t.point (leafScan Option.none new) t'.point = true ∧
          (∃ mid, new = mid ++ [⟨EventType.exit, info.options.title, t'.point⟩])) ∧
    ((codes.length * 10 +
        (if headCode codes = Code.char info.kind.as_char then 1
         else if headCode codes = Code.none then 0
         else if isEol (headCode codes) = true then 5 else 4) < N) →
      ∀ (t' : Tokenizer) (rest : List Code), at_break t info codes = Result.ok t' rest →
        ∃ (pre : List Code) (new : List Sig),
          codes = pre ++ Code.char info.kind.as_char :: rest ∧
          sigs t'.events = sigs t.events ++ new ∧
          t'.point = t.point + (pre.length + 1) ∧
          stackRun [info.options.string, info.options.title] new = some [] ∧
          tilesFrom t.point (leafScan Option.none new) t'.point = true ∧
          (headCode codes ≠ Code.char info.kind.as_char →
            ∃ s2 new2, new = s2 :: new2 ∧ s2.eventType = EventType.enter) ∧
          (∃ mid, new = mid ++ [⟨EventType.exit, info.options.title, t'.point⟩])) ∧
    ((codes.length * 10 +
        (if headCode codes = Code.char info.kind.as_char ∨ headCode codes = Code.none
            ∨ isEol (headCode codes) = true then 6 else 2) < N) →
      ∀ (t' : Tokenizer) (rest : List Code), title t info codes = Result.ok t' rest →
        ∃ (pre : List Code) (new : List Sig),
          codes = pre ++ Code.char info.kind.as_char :: rest ∧
          sigs t'.events = sigs t.events ++ new ∧
          t'.point = t.point + (pre.length + 1) ∧
          stackRun [Token.data, info.options.string, info.options.title] new = some [] ∧
          (∀ a, a ≤ t.point →
            tilesFrom a (leafScan (some ⟨EventType.enter, Token.data, a⟩) new) t'.point
              = true) ∧
          (∃ mid, new = mid ++ [⟨EventType.exit, info.options.title, t'.point⟩])) ∧
    ((codes.length * 10 + 7 < N) →
      ∀ (t' : Tokenizer) (rest : List Code), escape t info codes = Result.ok t' rest →
        ∃ (pre : List Code) (new : List Sig),
          codes = pre ++ Code.char info.kind.as_char :: rest ∧
          sigs t'.events = sigs t.events ++ new ∧
          t'.point = t.point + (pre.length + 1) ∧
          stackRun [Token.data, info.options.string, info.options.title] new = some [] ∧
          (∀ a, a ≤ t.point →
            tilesFrom a (leafScan (some ⟨EventType.enter, Token.data, a⟩) new) t'.point
              = true) ∧
          (∃ mid, new = mid ++ [⟨EventType.exit, info.options.title, t'.point⟩])) := by
  intro N
  induction N using Nat.strong_induction_on with
  | _ N ih =>
  intro t info codes
  refine ⟨?_, ?_, ?_, ?_⟩
  · -- begin
    intro hμ t' rest hok
    by_cases hcl : headCode codes = Code.char info.kind.as_char
    · rw [begin_closer hcl] at hok
      injection hok with ht' hrest
      subst ht'
      subst hrest
      have hcodes : codes = Code.char info.kind.as_char :: codes.tail := by
        cases codes with
        | nil => exact absurd hcl (by simp [headCode])
        | cons a l =>
          rw [headCode_cons] at hcl
          rw [hcl]
          rfl
      refine ⟨[], [⟨EventType.enter, info.options.marker, t.point⟩,
        ⟨EventType.exit, info.options.marker, t.point + 1⟩,
        ⟨EventType.exit, info.options.title, t.point + 1⟩], ?_, ?_, ?_, ?_, ?_, ?_⟩
      · simpa using hcodes
      · simp [Tokenizer.enter, Tokenizer.exit, Tokenizer.consume, sigs, Event.sig]
      · simp [Tokenizer.enter, Tokenizer.exit, Tokenizer.consume]
      · simp [stackRun]
      · simp [leafScan, tilesFrom, Tokenizer.enter, Tokenizer.exit, Tokenizer.consume]
      · exact ⟨[⟨EventType.enter, info.options.marker, t.point⟩,
          ⟨EventType.exit, info.options.marker, t.point + 1⟩], rfl⟩
    · rw [begin_not_closer hcl] at hok
      rw [if_neg hcl] at hμ
      have hμ2 : codes.length * 10 +
          (if headCode codes = Code.char info.kind.as_char then 1
           else if headCode codes = Code.none then 0
           else if isEol (headCode codes) = true then 5 else 4) <
          codes.length * 10 + 8 := by
        rw [if_neg hcl]
        split_ifs <;> omega
      obtain ⟨pre, new_ab, hco, hsig, hpt, hstack, htiles, hhead, hmid⟩ :=
        ((ih (codes.length * 10 + 8) hμ (t.enter info.options.string) info codes).2.1)
          hμ2 t' rest hok
      refine ⟨pre, ⟨EventType.enter, info.options.string, t.point⟩ :: new_ab, hco, ?_, ?_,
        ?_, ?_, ?_⟩
      · rw [hsig, sigs_enter]
        simp
      · simpa [Tokenizer.enter] using hpt
      · simpa [stackRun] using hstack
      · obtain ⟨s2, new2, hn2, hs2⟩ := hhead hcl
        have hls : leafScan Option.none
            (⟨EventType.enter, info.options.string, t.point⟩ :: new_ab) =
            leafScan Option.none new_ab := by
          rw [hn2]
          show leafScan (some _) (s2 :: new2) = _
          rw [leafScan_cons_enter _ _ hs2]
        rw [hls]
        exact htiles
      · obtain ⟨mid, hm⟩ := hmid
        exact ⟨⟨EventType.enter, info.options.string, t.point⟩ :: mid, by rw [hm]; simp⟩
  · -- at_break
    intro hμ t' rest hok
    by_cases hcl : headCode codes = Code.char info.kind.as_char
    · rw [at_break_closer hcl] at hok
      rw [if_pos hcl] at hμ
      have hμ2 : codes.length * 10 +
          (if headCode codes = Code.char info.kind.as_char then 0 else 8) <
          codes.length * 10 + 1 := by
        rw [if_pos hcl]
        omega
      obtain ⟨pre, new_b, hco, hsig, hpt, hstack, htiles, hmid⟩ :=
        ((ih (codes.length * 10 + 1) hμ (t.exit info.options.string) info codes).1)
          hμ2 t' rest hok
      refine ⟨pre, ⟨EventType.exit, info.options.string, t.point⟩ :: new_b, hco, ?_, ?_, ?_,
        ?_, ?_, ?_⟩
      · rw [hsig, sigs_exit]
        simp
      · simpa [Tokenizer.exit] using hpt
      · simpa [stackRun] using hstack
      · have hls : leafScan Option.none
            (⟨EventType.exit, info.options.string, t.point⟩ :: new_b) =
            leafScan Option.none new_b := by
          show leafScan (some _) new_b = _
          exact leafScan_some_exit _ rfl new_b
        rw [hls]
        exact htiles
      · intro hcontra
        exact absurd hcl hcontra
      · obtain ⟨mid, hm⟩ := hmid
        exact ⟨⟨EventType.exit, info.options.string, t.point⟩ :: mid, by rw [hm]; simp⟩
    · by_cases hnone : headCode codes = Code.none
      · rw [at_break_none hcl hnone] at hok
        exact Result.noConfusion hok
      · by_cases hEol : isEol (headCode codes) = true
        · cases hsp : space_or_tab_eol ⟨some ContentType.string, info.connect⟩ t codes with
          | none =>
            rw [at_break_eol_nok hEol hsp] at hok
            exact Result.noConfusion hok
          | some pr =>
            obtain ⟨t1, rest1⟩ := pr
            rw [at_break_eol_ok hEol hsp] at hok
            obtain ⟨pre1, hco1, hlen1, hpt1, hsig1⟩ := space_or_tab_eol_spec hsp
            have hlencodes : codes.length = pre1.length + rest1.length := by
              rw [hco1, List.length_append]
            rw [if_neg hcl, if_neg hnone, if_pos hEol] at hμ
            have hμ2 : rest1.length * 10 +
                (if headCode rest1 =
                    Code.char ({ info with connect := true } : Info).kind.as_char then 1
                 else if headCode rest1 = Code.none then 0
                 else if isEol (headCode rest1) = true then 5 else 4) <
                codes.length * 10 + 5 := by
              have hb : (if headCode rest1 =
                  Code.char ({ info with connect := true } : Info).kind.as_char then 1
                 else if headCode rest1 = Code.none then 0
                 else if isEol (headCode rest1) = true then 5 else 4) ≤ 5 := by
                split_ifs <;> omega
              omega
            obtain ⟨pre2, new2, hco2, hsig2, hpt2, hstack2, htile2, hhead2, hmid2⟩ :=
              ((ih (codes.length * 10 + 5) hμ t1 { info with connect := true } rest1).2.1)
                hμ2 t' rest hok
            rw [show ({ info with connect := true } : Info).kind = info.kind from rfl]
              at hco2
            rw [show ({ info with connect := true } : Info).options = info.options from rfl]
              at hstack2 hmid2
            refine ⟨pre1 ++ pre2,
              [⟨EventType.enter, Token.lineEnding, t.point⟩,
                ⟨EventType.exit, Token.lineEnding, t1.point⟩] ++ new2, ?_, ?_, ?_, ?_, ?_,
              ?_, ?_⟩
            · rw [hco1, hco2, List.append_assoc]
            · rw [hsig2, hsig1, List.append_assoc]
            · rw [hpt2, hpt1]
              simp only [List.length_append]
              omega
            · rw [stackRun_append]
              have hpref : stackRun [info.options.string, info.options.title]
                  [⟨EventType.enter, Token.lineEnding, t.point⟩,
                    ⟨EventType.exit, Token.lineEnding, t1.point⟩] =
                  some [info.options.string, info.options.title] := by
                simp [stackRun]
              rw [hpref]
              exact hstack2
            · rw [leafScan_append]
              have hcar : leafCarry Option.none
                  [⟨EventType.enter, Token.lineEnding, t.point⟩,
                    ⟨EventType.exit, Token.lineEnding, t1.point⟩] = Option.none := by
                simp [leafCarry]
              rw [hcar]
              have h1 : tilesFrom t.point
                  (leafScan Option.none
                    [⟨EventType.enter, Token.lineEnding, t.point⟩,
                      ⟨EventType.exit, Token.lineEnding, t1.point⟩]) t1.point = true := by
                simp [leafScan, tilesFrom, hpt1]
              exact tilesFrom_compose h1 htile2
            · intro _
              exact ⟨⟨EventType.enter, Token.lineEnding, t.point⟩,
                [⟨EventType.exit, Token.lineEnding, t1.point⟩] ++ new2, by simp, rfl⟩
            · obtain ⟨mid2, hm2⟩ := hmid2
              exact ⟨[⟨EventType.enter, Token.lineEnding, t.point⟩,
                ⟨EventType.exit, Token.lineEnding, t1.point⟩] ++ mid2, by rw [hm2]; simp⟩
        · obtain ⟨c, hc⟩ : ∃ c, headCode codes = Code.char c := by
            cases hh : headCode codes with
            | none => exact absurd hh hnone
            | carriageReturnLineFeed =>
              rw [hh] at hEol
              simp [isEol] at hEol
            | char c => exact ⟨c, rfl⟩
          have hcc1 : c ≠ info.kind.as_char := fun h => hcl (by rw [hc, h])
          have hcc23 : c ≠ '\n' ∧ c ≠ '\r' := by
            rw [hc] at hEol
            simp [isEol] at hEol
            exact hEol
          rw [if_neg hcl, if_neg hnone, if_neg hEol] at hμ
          have hbrneg : ¬(headCode codes = Code.char info.kind.as_char ∨
              headCode codes = Code.none ∨ isEol (headCode codes) = true) := by
            push_neg
            exact ⟨hcl, hnone, by simpa using hEol⟩
          have hμ2 : codes.length * 10 +
              (if headCode codes = Code.char info.kind.as_char ∨
                  headCode codes = Code.none ∨ isEol (headCode codes) = true then 6
                else 2) < codes.length * 10 + 4 := by
            rw [if_neg hbrneg]
            omega
          by_cases hconn : info.connect = true
          · rw [at_break_data_connect hc hcc1 hcc23.1 hcc23.2 hconn] at hok
            obtain ⟨pre, new_t, hco, hsigt, hptt, hstackt, htilet, hmidt⟩ :=
              ((ih (codes.length * 10 + 4) hμ
                { t.enter_with_content Token.data (some ContentType.string) with
                  events := link (t.enter_with_content Token.data
                      (some ContentType.string)).events
                    ((t.enter_with_content Token.data
                      (some ContentType.string)).events.length - 1) } info codes).2.2.1)
                hμ2 t' rest hok
            have hsigT2 : sigs ({ t.enter_with_content Token.data
                (some ContentType.string) with
                events := link (t.enter_with_content Token.data
                    (some ContentType.string)).events
                  ((t.enter_with_content Token.data
                    (some ContentType.string)).events.length - 1) } : Tokenizer).events =
                sigs t.events ++ [⟨EventType.enter, Token.data, t.point⟩] := by
              show sigs (link (t.enter_with_content Token.data
                  (some ContentType.string)).events
                ((t.enter_with_content Token.data
                  (some ContentType.string)).events.length - 1)) = _
              rw [sigs_link, sigs_enter_wc]
            refine ⟨pre, ⟨EventType.enter, Token.data, t.point⟩ :: new_t, hco, ?_, ?_, ?_,
              ?_, ?_, ?_⟩
            · rw [hsigt, hsigT2]
              simp
            · exact hptt
            · simpa [stackRun] using hstackt
            · show tilesFrom t.point
                (leafScan (some ⟨EventType.enter, Token.data, t.point⟩) new_t) t'.point
                = true
              exact htilet t.point (Nat.le_refl _)
            · intro _
              exact ⟨⟨EventType.enter, Token.data, t.point⟩, new_t, rfl, rfl⟩
            · obtain ⟨mid, hm⟩ := hmidt
              exact ⟨⟨EventType.enter, Token.data, t.point⟩ :: mid, by rw [hm]; simp⟩
          · have hconnf : info.connect = false := by
              cases hcf : info.connect
              · rfl
              · exact absurd hcf hconn
            rw [at_break_data_fresh hc hcc1 hcc23.1 hcc23.2 hconnf] at hok
            have hμ2b : codes.length * 10 +
                (if headCode codes =
                    Code.char ({ info with connect := true } : Info).kind.as_char ∨
                    headCode codes = Code.none ∨ isEol (headCode codes) = true then 6
                  else 2) < codes.length * 10 + 4 := by
              rw [show ({ info with connect := true } : Info).kind = info.kind from rfl]
              rw [if_neg hbrneg]
              omega
            obtain ⟨pre, new_t, hco, hsigt, hptt, hstackt, htilet, hmidt⟩ :=
              ((ih (codes.length * 10 + 4) hμ
                (t.enter_with_content Token.data (some ContentType.string))
                { info with connect := true } codes).2.2.1) hμ2b t' rest hok
            rw [show ({ info with connect := true } : Info).kind = info.kind from rfl]
              at hco
            rw [show ({ info with connect := true } : Info).options = info.options from rfl]
              at hstackt hmidt
            refine ⟨pre, ⟨EventType.enter, Token.data, t.point⟩ :: new_t, hco, ?_, ?_, ?_,
              ?_, ?_, ?_⟩
            · rw [hsigt, sigs_enter_wc]
              simp
            · exact hptt
            · simpa [stackRun] using hstackt
            · show tilesFrom t.point
                (leafScan (some ⟨EventType.enter, Token.data, t.point⟩) new_t) t'.point
                = true
              exact htilet t.point (Nat.le_refl _)
            · intro _
              exact ⟨⟨EventType.enter, Token.data, t.point⟩, new_t, rfl, rfl⟩
            · obtain ⟨mid, hm⟩ := hmidt
              exact ⟨⟨EventType.enter, Token.data, t.point⟩ :: mid, by rw [hm]; simp⟩
  · -- title
    intro hμ t' rest hok
    by_cases hbr : headCode codes = Code.char info.kind.as_char ∨ headCode codes = Code.none
        ∨ isEol (headCode codes) = true
    · rw [title_break hbr] at hok
      rw [if_pos hbr] at hμ
      have hμ2 : codes.length * 10 +
          (if headCode codes = Code.char info.kind.as_char then 1
           else if headCode codes = Code.none then 0
           else if isEol (headCode codes) = true then 5 else 4) <
          codes.length * 10 + 6 := by
        split_ifs <;> omega
      obtain ⟨pre, new_ab, hco, hsig, hpt, hstack, htiles, hhead, hmid⟩ :=
        ((ih (codes.length * 10 + 6) hμ (t.exit Token.data) info codes).2.1) hμ2 t' rest hok
      refine ⟨pre, ⟨EventType.exit, Token.data, t.point⟩ :: new_ab, hco, ?_, ?_, ?_, ?_, ?_⟩
      · rw [hsig, sigs_exit]
        simp
      · simpa [Tokenizer.exit] using hpt
      · simpa [stackRun] using hstack
      · intro a ha
        show tilesFrom a ((a, t.point) :: leafScan Option.none new_ab) t'.point = true
        simp only [tilesFrom, Bool.and_eq_true, beq_iff_eq, decide_eq_true_eq]
        exact ⟨⟨by simp, ha⟩, htiles⟩
      · obtain ⟨mid, hm⟩ := hmid
        exact ⟨⟨EventType.exit, Token.data, t.point⟩ :: mid, by rw [hm]; simp⟩
    · have hbrneg := hbr
      push_neg at hbr
      obtain ⟨hbr1, hbr2, hbr3⟩ := hbr
      rw [if_neg hbrneg] at hμ
      by_cases hbs : headCode codes = Code.char '\\'
      · rw [title_backslash hbs] at hok
        have hcons : codes = Code.char '\\' :: codes.tail := by
          cases codes with
          | nil => exact absurd hbs (by simp [headCode])
          | cons a l =>
            rw [headCode_cons] at hbs
            rw [hbs]
            rfl
        have hlenc : codes.length = codes.tail.length + 1 := by
          rw [hcons]
          simp
        have hμ2 : codes.tail.length * 10 + 7 < codes.length * 10 + 2 := by
          omega
        obtain ⟨pre_e, new_e, hco, hsig, hpt, hstack, htile, hmid⟩ :=
          ((ih (codes.length * 10 + 2) hμ t.consume info codes.tail).2.2.2) hμ2 t' rest hok
        refine ⟨Code.char '\\' :: pre_e, new_e, ?_, hsig, ?_, hstack, ?_, hmid⟩
        · rw [hco] at hcons
          rw [hcons]
          simp
        · rw [hpt]
          show t.point + 1 + (pre_e.length + 1) = t.point + (pre_e.length + 1 + 1)
          omega
        · intro a ha
          exact htile a (Nat.le_succ_of_le ha)
      · obtain ⟨c, hc⟩ : ∃ c, headCode codes = Code.char c := by
          cases hh : headCode codes with
          | none => exact absurd hh hbr2
          | carriageReturnLineFeed =>
            rw [hh] at hbr3
            simp [isEol] at hbr3
          | char c => exact ⟨c, rfl⟩
        have hcc1 : c ≠ info.kind.as_char := fun h => hbr1 (by rw [hc, h])
        have hcc23 : c ≠ '\n' ∧ c ≠ '\r' := by
          rw [hc] at hbr3
          simp [isEol] at hbr3
          exact hbr3
        have hcc4 : c ≠ '\\' := fun h => hbs (by rw [hc, h])
        rw [title_consume hc hcc1 hcc23.1 hcc23.2 hcc4] at hok
        have hcons : codes = Code.char c :: codes.tail := by
          cases codes with
          | nil => exact absurd hc (by simp [headCode])
          | cons a l =>
            rw [headCode_cons] at hc
            rw [hc]
            rfl
        have hlenc : codes.length = codes.tail.length + 1 := by
          rw [hcons]
          simp
        have hμ2 : codes.tail.length * 10 +
            (if headCode codes.tail = Code.char info.kind.as_char ∨
                headCode codes.tail = Code.none ∨ isEol (headCode codes.tail) = true then 6
              else 2) < codes.length * 10 + 2 := by
          have hb : (if headCode codes.tail = Code.char info.kind.as_char ∨
              headCode codes.tail = Code.none ∨ isEol (headCode codes.tail) = true then 6
            else 2) ≤ 6 := by
            split_ifs <;> omega
          omega
        obtain ⟨pre_t, new_t, hco, hsig, hpt, hstack, htile, hmid⟩ :=
          ((ih (codes.length * 10 + 2) hμ t.consume info codes.tail).2.2.1) hμ2 t' rest hok
        refine ⟨Code.char c :: pre_t, new_t, ?_, hsig, ?_, hstack, ?_, hmid⟩
        · rw [hco] at hcons
          rw [hcons]
          simp
        · rw [hpt]
          show t.point + 1 + (pre_t.length + 1) = t.point + (pre_t.length + 1 + 1)
          omega
        · intro a ha
          exact htile a (Nat.le_succ_of_le ha)
  · -- escape
    intro hμ t' rest hok
    by_cases hcl : headCode codes = Code.char info.kind.as_char
    · rw [escape_closer hcl] at hok
      have hcons : codes = Code.char info.kind.as_char :: codes.tail := by
        cases codes with
        | nil => exact absurd hcl (by simp [headCode])
        | cons a l =>
          rw [headCode_cons] at hcl
          rw [hcl]
          rfl
      have hlenc : codes.length = codes.tail.length + 1 := by
        rw [hcons]
        simp
      have hμ2 : codes.tail.length * 10 +
          (if headCode codes.tail = Code.char info.kind.as_char ∨
              headCode codes.tail = Code.none ∨ isEol (headCode codes.tail) = true then 6
            else 2) < codes.length * 10 + 7 := by
        have hb : (if headCode codes.tail = Code.char info.kind.as_char ∨
            headCode codes.tail = Code.none ∨ isEol (headCode codes.tail) = true then 6
          else 2) ≤ 6 := by
          split_ifs <;> omega
        omega
      obtain ⟨pre_t, new_t, hco, hsig, hpt, hstack, htile, hmid⟩ :=
        ((ih (codes.length * 10 + 7) hμ t.consume info codes.tail).2.2.1) hμ2 t' rest hok
      refine ⟨Code.char info.kind.as_char :: pre_t, new_t, ?_, hsig, ?_, hstack, ?_, hmid⟩
      · rw [hco] at hcons
        rw [hcons]
        simp
      · rw [hpt]
        show t.point + 1 + (pre_t.length + 1) = t.point + (pre_t.length + 1 + 1)
        omega
      · intro a ha
        exact htile a (Nat.le_succ_of_le ha)
    · rw [escape_other hcl] at hok
      have hμ2 : codes.length * 10 +
          (if headCode codes = Code.char info.kind.as_char ∨
              headCode codes = Code.none ∨ isEol (headCode codes) = true then 6
            else 2) < codes.length * 10 + 7 := by
        have hb : (if headCode codes = Code.char info.kind.as_char ∨
            headCode codes = Code.none ∨ isEol (headCode codes) = true then 6
          else 2) ≤ 6 := by
          split_ifs <;> omega
        omega
      exact ((ih (codes.length * 10 + 7) hμ t info codes).2.2.1) hμ2 t' rest hok

/-- The invariant instantiated at a fresh tokenizer right after the opening
marker has been processed. -/
theorem begin_fresh_invariant (options : Options) (k : Kind) (tl : List Code)
    (t' : Tokenizer) (rest : List Code)
    (hb : begin ((((⟨[], 0⟩ : Tokenizer).enter options.title).enter
        options.marker).consume.exit options.marker) ⟨false, k, options⟩ tl =
      Result.ok t' rest) :
    stackRun [] (sigs t'.events) = some [] ∧
    tilesFrom 0 (leafScan Option.none (sigs t'.events)) t'.point = true ∧
    t'.point + rest.length = tl.length + 1 ∧
    ∃ mid, sigs t'.events = ⟨EventType.enter, options.title, 0⟩ :: mid ++
      [⟨EventType.exit, options.title, t'.point⟩] := by
  obtain ⟨pre, new, hco, hsig, hpt, hstack, htiles, hmid⟩ :=
    (construct_invariants (tl.length * 10 + 9)
      ((((⟨[], 0⟩ : Tokenizer).enter options.title).enter
        options.marker).consume.exit options.marker) ⟨false, k, options⟩ tl).1
      (by split_ifs <;> omega) t' rest hb
  have hsigs1 : sigs ((((⟨[], 0⟩ : Tokenizer).enter options.title).enter
      options.marker).consume.exit options.marker).events =
      [⟨EventType.enter, options.title, 0⟩, ⟨EventType.enter, options.marker, 0⟩,
        ⟨EventType.exit, options.marker, 1⟩] := by
    simp [Tokenizer.enter, Tokenizer.exit, Tokenizer.consume, sigs, Event.sig]
  have hpt2 : t'.point = 1 + (pre.length + 1) := hpt
  have hlen : tl.length = pre.length + 1 + rest.length := by
    rw [hco]
    simp
    omega
  refine ⟨?_, ?_, ?_, ?_⟩
  · rw [hsig, hsigs1, stackRun_append]
    have hpref : stackRun [] [⟨EventType.enter, options.title, 0⟩,
        ⟨EventType.enter, options.marker, 0⟩, ⟨EventType.exit, options.marker, 1⟩] =
        some [options.title] := by
      simp [stackRun]
    rw [hpref]
    exact hstack
  · rw [hsig, hsigs1, leafScan_append]
    have hcar : leafCarry Option.none [⟨EventType.enter, options.title, 0⟩,
        ⟨EventType.enter, options.marker, 0⟩, ⟨EventType.exit, options.marker, 1⟩] =
        Option.none := by
      simp [leafCarry]
    rw [hcar]
    have h1 : tilesFrom 0
        (leafScan Option.none [⟨EventType.enter, options.title, 0⟩,
          ⟨EventType.enter, options.marker, 0⟩, ⟨EventType.exit, options.marker, 1⟩])
        1 = true := by
      simp [leafScan, tilesFrom]
    exact tilesFrom_compose h1 htiles
  · omega
  · obtain ⟨mid, hm⟩ := hmid
    refine ⟨⟨EventType.enter, options.marker, 0⟩ :: ⟨EventType.exit, options.marker, 1⟩ ::
      mid, ?_⟩
    rw [hsig, hsigs1, hm]
    simp

/-- C1: for every Ok run of the construct from a fresh tokenizer, the emitted
events from the initial Enter(Title) to the final Exit(Title) are
stack-balanced, the extents of the innermost spans tile the consumed input
exactly — no gaps, no overlaps — and the final position equals the number of
consumed units. -/
theorem c1_roundtrip_balanced (options : Options) (codes : List Code) (t' : Tokenizer)
    (rest : List Code) (h : start ⟨[], 0⟩ options codes = Result.ok t' rest) :
    stackRun [] (sigs t'.events) = some [] ∧
    tilesFrom 0 (leafScan Option.none (sigs t'.events)) t'.point = true ∧
    t'.point + rest.length = codes.length ∧
    ∃ mid, sigs t'.events = ⟨EventType.enter, options.title, 0⟩ :: mid ++
      [⟨EventType.exit, options.title, t'.point⟩] := by
  unfold start at h
  split at h
  · rename_i heq
    rw [heq] at h
    simp only [Kind.from_code, Kind.from_char] at h
    have hlen : codes.length = codes.tail.length + 1 := by
      cases codes with
      | nil => exact absurd heq (by simp [headCode])
      | cons a l => simp
    obtain ⟨h1, h2, h3, h4⟩ := begin_fresh_invariant options Kind.double codes.tail t' rest h
    exact ⟨h1, h2, by omega, h4⟩
  · rename_i heq
    rw [heq] at h
    simp only [Kind.from_code, Kind.from_char] at h
    have hlen : codes.length = codes.tail.length + 1 := by
      cases codes with
      | nil => exact absurd heq (by simp [headCode])
      | cons a l => simp
    obtain ⟨h1, h2, h3, h4⟩ := begin_fresh_invariant options Kind.single codes.tail t' rest h
    exact ⟨h1, h2, by omega, h4⟩
  · rename_i heq
    rw [heq] at h
    simp only [Kind.from_code, Kind.from_char] at h
    have hlen : codes.length = codes.tail.length + 1 := by
      cases codes with
      | nil => exact absurd heq (by simp [headCode])
      | cons a l => simp
    obtain ⟨h1, h2, h3, h4⟩ := begin_fresh_invariant options Kind.paren codes.tail t' rest h
    exact ⟨h1, h2, by omega, h4⟩
  · exact Result.noConfusion h

/-- Witness for `c1_roundtrip_balanced` at the concrete empty double-quoted
title. -/
theorem c1_witness :
    stackRun [] (sigs ([⟨EventType.enter, Token.title, 0, Option.none, Option.none,
        Option.none⟩,
      ⟨EventType.enter, Token.marker, 0, Option.none, Option.none, Option.none⟩,
      ⟨EventType.exit, Token.marker, 1, Option.none, Option.none, Option.none⟩,
      ⟨EventType.enter, Token.marker, 1, Option.none, Option.none, Option.none⟩,
      ⟨EventType.exit, Token.marker, 2, Option.none, Option.none, Option.none⟩,
      ⟨EventType.exit, Token.title, 2, Option.none, Option.none, Option.none⟩] :
        List Event)) = some [] ∧
    tilesFrom 0 (leafScan Option.none (sigs
      ([⟨EventType.enter, Token.title, 0, Option.none, Option.none, Option.none⟩,
        ⟨EventType.enter, Token.marker, 0, Option.none, Option.none, Option.none⟩,
        ⟨EventType.exit, Token.marker, 1, Option.none, Option.none, Option.none⟩,
        ⟨EventType.enter, Token.marker, 1, Option.none, Option.none, Option.none⟩,
        ⟨EventType.exit, Token.marker, 2, Option.none, Option.none, Option.none⟩,
        ⟨EventType.exit, Token.title, 2, Option.none, Option.none, Option.none⟩] :
          List Event))) 2 = true ∧
    (2 : Nat) + ([] : List Code).length =
      ([Code.char '"', Code.char '"'] : List Code).length ∧
    ∃ mid, sigs ([⟨EventType.enter, Token.title, 0, Option.none, Option.none, Option.none⟩,
      ⟨EventType.enter, Token.marker, 0, Option.none, Option.none, Option.none⟩,
      ⟨EventType.exit, Token.marker, 1, Option.none, Option.none, Option.none⟩,
      ⟨EventType.enter, Token.marker, 1, Option.none, Option.none, Option.none⟩,
      ⟨EventType.exit, Token.marker, 2, Option.none, Option.none, Option.none⟩,
      ⟨EventType.exit, Token.title, 2, Option.none, Option.none, Option.none⟩] :
        List Event) = ⟨EventType.enter, Token.title, 0⟩ :: mid ++
      [⟨EventType.exit, Token.title, 2⟩] := by
  exact c1_roundtrip_balanced optsStd [Code.char '"', Code.char '"']
    ⟨[⟨EventType.enter, Token.title, 0, Option.none, Option.none, Option.none⟩,
      ⟨EventType.enter, Token.marker, 0, Option.none, Option.none, Option.none⟩,
      ⟨EventType.exit, Token.marker, 1, Option.none, Option.none, Option.none⟩,
      ⟨EventType.enter, Token.marker, 1, Option.none, Option.none, Option.none⟩,
      ⟨EventType.exit, Token.marker, 2, Option.none, Option.none, Option.none⟩,
      ⟨EventType.exit, Token.title, 2, Option.none, Option.none, Option.none⟩], 2⟩ []
    (by simp [start, begin, at_break, title, escape, Kind.from_code, Kind.from_char,
      Kind.as_char, headCode, isEol, Tokenizer.enter, Tokenizer.exit, Tokenizer.consume,
      Tokenizer.enter_with_content, optsStd])

theorem scan_nil (k : Kind) : hasUnescapedCloser k [] = false := by
  simp only [hasUnescapedCloser]

theorem scan_none_cons (k : Kind) (l : List Code) :
    hasUnescapedCloser k (Code.none :: l) = false := by
  simp only [hasUnescapedCloser]

theorem scan_crlf_cons (k : Kind) (l : List Code) :
    hasUnescapedCloser k (Code.carriageReturnLineFeed :: l) =
      hasUnescapedCloser k l := by
  simp only [hasUnescapedCloser]

theorem scan_char_cons (k : Kind) (c : Char) (l : List Code) :
    hasUnescapedCloser k (Code.char c :: l) =
      if c = '\\' then
        if headCode l = Code.char k.as_char then hasUnescapedCloser k l.tail
        else hasUnescapedCloser k l
      else if c = k.as_char then true
      else hasUnescapedCloser k l := by
  simp only [hasUnescapedCloser]

theorem scan_head_closer {k : Kind} {codes : List Code}
    (h : headCode codes = Code.char k.as_char) :
    hasUnescapedCloser k codes = true := by
  cases codes with
  | nil => exact absurd h (by simp [headCode])
  | cons c l =>
    rw [headCode_cons] at h
    subst h
    rw [scan_char_cons, if_neg (fun hb => backslash_ne_closer k hb.symm), if_pos rfl]

theorem scan_skip_cons {c : Char} (k : Kind) (h1 : c ≠ '\\') (h2 : c ≠ k.as_char)
    (l : List Code) :
    hasUnescapedCloser k (Code.char c :: l) = hasUnescapedCloser k l := by
  rw [scan_char_cons, if_neg h1, if_neg h2]

theorem scan_eol_cons {c : Code} (k : Kind) (h : isEol c = true) (l : List Code) :
    hasUnescapedCloser k (c :: l) = hasUnescapedCloser k l := by
  cases c with
  | none => simp [isEol] at h
  | carriageReturnLineFeed => exact scan_crlf_cons k l
  | char ch =>
    simp only [isEol, Bool.or_eq_true, beq_iff_eq] at h
    have h2 : ch ≠ k.as_char := by
      rcases as_char_cases k with hk | hk | hk <;> rw [hk] <;> rcases h with h | h <;>
        rw [h] <;> decide
    have h1 : ch ≠ '\\' := by
      rcases h with h | h <;> rw [h] <;> decide
    exact scan_skip_cons k h1 h2 l

theorem ws_ne_closer (k : Kind) {c : Char} (h : c = ' ' ∨ c = '\t') :
    c ≠ k.as_char := by
  rcases as_char_cases k with hk | hk | hk <;> rw [hk] <;> rcases h with h | h <;>
    rw [h] <;> decide

theorem scan_drop_ws (k : Kind) (l : List Code) :
    hasUnescapedCloser k (l.drop (count_space_or_tab l)) = hasUnescapedCloser k l := by
  induction l with
  | nil => simp [count_space_or_tab]
  | cons c rest ih =>
    rw [count_space_or_tab.eq_def]
    split
    · rename_i r2 heq
      rw [List.cons.injEq] at heq
      obtain ⟨hc, hr⟩ := heq
      subst hc
      subst hr
      rw [List.drop_succ_cons, ih]
      exact (scan_skip_cons k (by decide) (ws_ne_closer k (Or.inl rfl)) rest).symm
    · rename_i r2 heq
      rw [List.cons.injEq] at heq
      obtain ⟨hc, hr⟩ := heq
      subst hc
      subst hr
      rw [List.drop_succ_cons, ih]
      exact (scan_skip_cons k (by decide) (ws_ne_closer k (Or.inr rfl)) rest).symm
    · rw [List.drop_zero]

theorem scan_space_or_tab_eol {opts : EolOptions} {t : Tokenizer} {codes : List Code}
    {t1 : Tokenizer} {rest1 : List Code} (k : Kind)
    (h : space_or_tab_eol opts t codes = some (t1, rest1)) :
    hasUnescapedCloser k rest1 = hasUnescapedCloser k codes ∧
      rest1.length < codes.length := by
  cases codes with
  | nil => simp [space_or_tab_eol] at h
  | cons c rest =>
    simp only [space_or_tab_eol] at h
    split at h
    · rename_i hEol
      split at h
      · simp at h
      · simp only [Option.some.injEq, Prod.mk.injEq] at h
        have hrest1 : rest1 = rest.drop (count_space_or_tab rest) := h.2.symm
        subst hrest1
        constructor
        · rw [scan_drop_ws, scan_eol_cons k hEol]
        · have hle := count_space_or_tab_le rest
          simp only [List.length_drop, List.length_cons]
          omega
    · simp at h

/-- Failure invariant of the four state functions, by strong induction on
their termination measure: whenever the remaining input holds no unescaped
closing character before the end of input (as scanned by
`hasUnescapedCloser`; for `escape` the pending escape of the head is taken
into account), the state function fails. -/
theorem nok_invariants : ∀ N : Nat, ∀ (t : Tokenizer) (info : Info) (codes : List Code),
    ((codes.length * 10 +
        (if headCode codes = Code.char info.kind.as_char then 0 else 8) < N) →
      hasUnescapedCloser info.kind codes = false →
      ∃ tn, begin t info codes = Result.nok tn) ∧
    ((codes.length * 10 +
        (if headCode codes = Code.char info.kind.as_char then 1
         else if headCode codes = Code.none then 0
         else if isEol (headCode codes) = true then 5 else 4) < N) →
      hasUnescapedCloser info.kind codes = false →
      ∃ tn, at_break t info codes = Result.nok tn) ∧
    ((codes.length * 10 +
        (if headCode codes = Code.char info.kind.as_char ∨ headCode codes = Code.none
            ∨ isEol (headCode codes) = true then 6 else 2) < N) →
      hasUnescapedCloser info.kind codes = false →
      ∃ tn, title t info codes = Result.nok tn) ∧
    ((codes.length * 10 + 7 < N) →
      (if headCode codes = Code.char info.kind.as_char
        then hasUnescapedCloser info.kind codes.tail
        else hasUnescapedCloser info.kind codes) = false →
      ∃ tn, escape t info codes = Result.nok tn) := by
  intro N
  induction N using Nat.strong_induction_on with
  | _ N ih =>
  intro t info codes
  refine ⟨?_, ?_, ?_, ?_⟩
  · -- begin
    intro hμ hscan
    by_cases hcl : headCode codes = Code.char info.kind.as_char
    · rw [scan_head_closer hcl] at hscan
      exact Bool.noConfusion hscan
    · rw [begin_not_closer hcl]
      rw [if_neg hcl] at hμ
      have hμ2 : codes.length * 10 +
          (if headCode codes = Code.char info.kind.as_char then 1
           else if headCode codes = Code.none then 0
           else if isEol (headCode codes) = true then 5 else 4) <
          codes.length * 10 + 8 := by
        rw [if_neg hcl]
        split_ifs <;> omega
      exact ((ih (codes.length * 10 + 8) hμ (t.enter info.options.string) info codes).2.1)
        hμ2 hscan
  · -- at_break
    intro hμ hscan
    by_cases hcl : headCode codes = Code.char info.kind.as_char
    · rw [scan_head_closer hcl] at hscan
      exact Bool.noConfusion hscan
    · by_cases hnone : headCode codes = Code.none
      · exact ⟨t, at_break_none hcl hnone⟩
      · by_cases hEol : isEol (headCode codes) = true
        · cases hsp : space_or_tab_eol ⟨some ContentType.string, info.connect⟩ t codes with
          | none => exact ⟨t, at_break_eol_nok hEol hsp⟩
          | some pr =>
            obtain ⟨t1, rest1⟩ := pr
            rw [at_break_eol_ok hEol hsp]
            obtain ⟨hscan1, hlen1⟩ := scan_space_or_tab_eol info.kind hsp
            rw [if_neg hcl, if_neg hnone, if_pos hEol] at hμ
            have hμ2 : rest1.length * 10 +
                (if headCode rest1 =
                    Code.char ({ info with connect := true } : Info).kind.as_char then 1
                 else if headCode rest1 = Code.none then 0
                 else if isEol (headCode rest1) = true then 5 else 4) <
                codes.length * 10 + 5 := by
              have hb : (if headCode rest1 =
                  Code.char ({ info with connect := true } : Info).kind.as_char then 1
                 else if headCode rest1 = Code.none then 0
                 else if isEol (headCode rest1) = true then 5 else 4) ≤ 5 := by
                split_ifs <;> omega
              omega
            have hscan2 : hasUnescapedCloser
                ({ info with connect := true } : Info).kind rest1 = false := by
              rw [show ({ info with connect := true } : Info).kind = info.kind from rfl]
              rw [hscan1]
              exact hscan
            exact ((ih (codes.length * 10 + 5) hμ t1 { info with connect := true }
              rest1).2.1) hμ2 hscan2
        · cases hhc : headCode codes with
          | none => exact absurd hhc hnone
          | carriageReturnLineFeed => exact absurd (by rw [hhc]; rfl) hEol
          | char c =>
            have hc1 : c ≠ info.kind.as_char := fun hc => hcl (by rw [hhc, hc])
            have hc2 : c ≠ '\n' := fun hc => hEol (by rw [hhc, hc]; rfl)
            have hc3 : c ≠ '\r' := fun hc => hEol (by rw [hhc, hc]; rfl)
            rw [if_neg hcl, if_neg hnone, if_neg hEol] at hμ
            by_cases hconn : info.connect = true
            · rw [at_break_data_connect hhc hc1 hc2 hc3 hconn]
              have hμ2 : codes.length * 10 +
                  (if headCode codes = Code.char info.kind.as_char
                      ∨ headCode codes = Code.none
                      ∨ isEol (headCode codes) = true then 6 else 2) <
                  codes.length * 10 + 4 := by
                rw [if_neg (fun hx => hx.elim hcl (fun h2 => h2.elim hnone hEol))]
                omega
              exact ((ih (codes.length * 10 + 4) hμ _ info codes).2.2.1) hμ2 hscan
            · rw [at_break_data_fresh hhc hc1 hc2 hc3 (by simpa using hconn)]
              have hμ2 : codes.length * 10 +
                  (if headCode codes =
                      Code.char ({ info with connect := true } : Info).kind.as_char
                      ∨ headCode codes = Code.none
                      ∨ isEol (headCode codes) = true then 6 else 2) <
                  codes.length * 10 + 4 := by
                rw [show ({ info with connect := true } : Info).kind = info.kind from rfl]
                rw [if_neg (fun hx => hx.elim hcl (fun h2 => h2.elim hnone hEol))]
                omega
              have hscan2 : hasUnescapedCloser
                  ({ info with connect := true } : Info).kind codes = false := by
                rw [show ({ info with connect := true } : Info).kind = info.kind from rfl]
                exact hscan
              exact ((ih (codes.length * 10 + 4) hμ _ { info with connect := true }
                codes).2.2.1) hμ2 hscan2
  · -- title
    intro hμ hscan
    by_cases hcl : headCode codes = Code.char info.kind.as_char
    · rw [scan_head_closer hcl] at hscan
      exact Bool.noConfusion hscan
    · by_cases hbr : headCode codes = Code.none ∨ isEol (headCode codes) = true
      · rw [title_break (Or.inr hbr)]
        rw [if_pos (Or.inr hbr)] at hμ
        have hμ2 : codes.length * 10 +
            (if headCode codes = Code.char info.kind.as_char then 1
             else if headCode codes = Code.none then 0
             else if isEol (headCode codes) = true then 5 else 4) <
            codes.length * 10 + 6 := by
          rw [if_neg hcl]
          split_ifs <;> omega
        exact ((ih (codes.length * 10 + 6) hμ (t.exit Token.data) info codes).2.1)
          hμ2 hscan
      · rw [if_neg (fun hx => hx.elim hcl hbr)] at hμ
        by_cases hbs : headCode codes = Code.char '\\'
        · cases codes with
          | nil => exact absurd hbs (by simp [headCode])
          | cons c0 l =>
            rw [headCode_cons] at hbs
            subst hbs
            rw [title_backslash (headCode_cons (Code.char '\\') l)]
            simp only [List.tail_cons]
            rw [scan_char_cons, if_pos rfl] at hscan
            have hμ2 : l.length * 10 + 7 < (Code.char '\\' :: l).length * 10 + 2 := by
              simp only [List.length_cons]
              omega
            exact ((ih ((Code.char '\\' :: l).length * 10 + 2) hμ t.consume info
              l).2.2.2) hμ2 hscan
        · cases hhc : headCode codes with
          | none => exact absurd (Or.inl hhc) hbr
          | carriageReturnLineFeed => exact absurd (Or.inr (by rw [hhc]; rfl)) hbr
          | char c =>
            have hc1 : c ≠ info.kind.as_char := fun hc => hcl (by rw [hhc, hc])
            have hc2 : c ≠ '\n' := fun hc => hbr (Or.inr (by rw [hhc, hc]; rfl))
            have hc3 : c ≠ '\r' := fun hc => hbr (Or.inr (by rw [hhc, hc]; rfl))
            have hc4 : c ≠ '\\' := fun hc => hbs (by rw [hhc, hc])
            cases codes with
            | nil => exact absurd hhc (by simp [headCode])
            | cons c0 l =>
              rw [headCode_cons] at hhc
              subst hhc
              rw [title_consume (headCode_cons _ l) hc1 hc2 hc3 hc4]
              simp only [List.tail_cons]
              rw [scan_skip_cons info.kind hc4 hc1 l] at hscan
              have hμ2 : l.length * 10 +
                  (if headCode l = Code.char info.kind.as_char ∨ headCode l = Code.none
                      ∨ isEol (headCode l) = true then 6 else 2) <
                  (Code.char c :: l).length * 10 + 2 := by
                have hb : (if headCode l = Code.char info.kind.as_char
                    ∨ headCode l = Code.none
                    ∨ isEol (headCode l) = true then 6 else 2) ≤ 6 := by
                  split_ifs <;> omega
                simp only [List.length_cons]
                omega
              exact ((ih ((Code.char c :: l).length * 10 + 2) hμ t.consume info
                l).2.2.1) hμ2 hscan
  · -- escape
    intro hμ hscan
    by_cases hcl : headCode codes = Code.char info.kind.as_char
    · rw [if_pos hcl] at hscan
      cases codes with
      | nil => exact absurd hcl (by simp [headCode])
      | cons c0 l =>
        rw [escape_closer hcl]
        simp only [List.tail_cons] at hscan ⊢
        have hμ2 : l.length * 10 +
            (if headCode l = Code.char info.kind.as_char ∨ headCode l = Code.none
                ∨ isEol (headCode l) = true then 6 else 2) <
            (c0 :: l).length * 10 + 7 := by
          have hb : (if headCode l = Code.char info.kind.as_char
              ∨ headCode l = Code.none
              ∨ isEol (headCode l) = true then 6 else 2) ≤ 6 := by
            split_ifs <;> omega
          simp only [List.length_cons]
          omega
        exact ((ih ((c0 :: l).length * 10 + 7) hμ t.consume info l).2.2.1) hμ2 hscan
    · rw [if_neg hcl] at hscan
      rw [escape_other hcl]
      have hμ2 : codes.length * 10 +
          (if headCode codes = Code.char info.kind.as_char ∨ headCode codes = Code.none
              ∨ isEol (headCode codes) = true then 6 else 2) <
          codes.length * 10 + 7 := by
        split_ifs <;> omega
      exact ((ih (codes.length * 10 + 7) hμ t info codes).2.2.1) hμ2 hscan

/-- C7: a run that ends in Ok always consumed the matching closing character
as its last unit — the input decomposes as the opener, some middle, the
closer, then the unconsumed rest — and an input that begins with a valid
opener but reaches the end of input before an unescaped closing character
(`hasUnescapedCloser` is false on the tail: every occurrence of the closing
character before the end of input is escaped, i.e. immediately preceded by a
backslash in text position and therefore consumed as content) can never end
in Ok: it ends in Nok. -/
theorem c7_ok_requires_closer :
    (∀ (t : Tokenizer) (options : Options) (codes : List Code) (t' : Tokenizer)
        (rest : List Code),
        start t options codes = Result.ok t' rest →
        ∃ (k : Kind) (pre : List Code), Kind.from_code (headCode codes) = some k ∧
          codes = headCode codes :: (pre ++ Code.char k.as_char :: rest)) ∧
    (∀ (t : Tokenizer) (options : Options) (codes : List Code),
        (∀ k : Kind, Kind.from_code (headCode codes) = some k →
          hasUnescapedCloser k codes.tail = false) →
        ∃ tn, start t options codes = Result.nok tn) := by
  have part1 : ∀ (t : Tokenizer) (options : Options) (codes : List Code) (t' : Tokenizer)
      (rest : List Code),
      start t options codes = Result.ok t' rest →
      ∃ (k : Kind) (pre : List Code), Kind.from_code (headCode codes) = some k ∧
        codes = headCode codes :: (pre ++ Code.char k.as_char :: rest) := by
    intro t options codes t' rest h
    unfold start at h
    split at h
    · rename_i heq
      rw [heq] at h
      simp only [Kind.from_code, Kind.from_char] at h
      obtain ⟨pre, new, hco, _⟩ :=
        (construct_invariants (codes.tail.length * 10 + 9) _ ⟨false, Kind.double, options⟩
          codes.tail).1 (by split_ifs <;> omega) t' rest h
      refine ⟨Kind.double, pre, by rw [heq]; rfl, ?_⟩
      cases codes with
      | nil => exact absurd heq (by simp [headCode])
      | cons a l =>
        rw [headCode_cons] at heq
        rw [heq]
        simp only [List.tail_cons] at hco
        rw [hco]
        rfl
    · rename_i heq
      rw [heq] at h
      simp only [Kind.from_code, Kind.from_char] at h
      obtain ⟨pre, new, hco, _⟩ :=
        (construct_invariants (codes.tail.length * 10 + 9) _ ⟨false, Kind.single, options⟩
          codes.tail).1 (by split_ifs <;> omega) t' rest h
      refine ⟨Kind.single, pre, by rw [heq]; rfl, ?_⟩
      cases codes with
      | nil => exact absurd heq (by simp [headCode])
      | cons a l =>
        rw [headCode_cons] at heq
        rw [heq]
        simp only [List.tail_cons] at hco
        rw [hco]
        rfl
    · rename_i heq
      rw [heq] at h
      simp only [Kind.from_code, Kind.from_char] at h
      obtain ⟨pre, new, hco, _⟩ :=
        (construct_invariants (codes.tail.length * 10 + 9) _ ⟨false, Kind.paren, options⟩
          codes.tail).1 (by split_ifs <;> omega) t' rest h
      refine ⟨Kind.paren, pre, by rw [heq]; rfl, ?_⟩
      cases codes with
      | nil => exact absurd heq (by simp [headCode])
      | cons a l =>
        rw [headCode_cons] at heq
        rw [heq]
        simp only [List.tail_cons] at hco
        rw [hco]
        rfl
    · exact Result.noConfusion h
  refine ⟨part1, ?_⟩
  intro t options codes hno
  cases hres : start t options codes with
  | nok tn => exact ⟨tn, rfl⟩
  | ok t2 r2 =>
    exfalso
    unfold start at hres
    split at hres
    · rename_i heq
      rw [heq] at hres
      simp only [Kind.from_code, Kind.from_char] at hres
      have hscan : hasUnescapedCloser Kind.double codes.tail = false := by
        apply hno
        rw [heq]
        decide
      obtain ⟨tn, hn⟩ := (nok_invariants (codes.tail.length * 10 + 9)
        ((((t.enter options.title).enter options.marker).consume).exit options.marker)
        ⟨false, Kind.double, options⟩ codes.tail).1 (by split_ifs <;> omega) hscan
      rw [hn] at hres
      exact Result.noConfusion hres
    · rename_i heq
      rw [heq] at hres
      simp only [Kind.from_code, Kind.from_char] at hres
      have hscan : hasUnescapedCloser Kind.single codes.tail = false := by
        apply hno
        rw [heq]
        decide
      obtain ⟨tn, hn⟩ := (nok_invariants (codes.tail.length * 10 + 9)
        ((((t.enter options.title).enter options.marker).consume).exit options.marker)
        ⟨false, Kind.single, options⟩ codes.tail).1 (by split_ifs <;> omega) hscan
      rw [hn] at hres
      exact Result.noConfusion hres
    · rename_i heq
      rw [heq] at hres
      simp only [Kind.from_code, Kind.from_char] at hres
      have hscan : hasUnescapedCloser Kind.paren codes.tail = false := by
        apply hno
        rw [heq]
        decide
      obtain ⟨tn, hn⟩ := (nok_invariants (codes.tail.length * 10 + 9)
        ((((t.enter options.title).enter options.marker).consume).exit options.marker)
        ⟨false, Kind.paren, options⟩ codes.tail).1 (by split_ifs <;> omega) hscan
      rw [hn] at hres
      exact Result.noConfusion hres
    · exact Result.noConfusion hres

/-- Witness for `c7_ok_requires_closer`: a parenthesized title whose only
closing paren is escaped by a backslash, reaching the end of input, fails. -/
theorem c7_witness :
    ∃ tn, start ⟨[], 0⟩ optsStd
      [Code.char '(', Code.char 'a', Code.char '\\', Code.char ')'] = Result.nok tn :=
  c7_ok_requires_closer.2 ⟨[], 0⟩ optsStd
    [Code.char '(', Code.char 'a', Code.char '\\', Code.char ')'] (by
      intro k hk
      simp only [headCode, Kind.from_code, Kind.from_char, Option.some.injEq] at hk
      subst hk
      simp [hasUnescapedCloser, headCode, Kind.as_char])
